import Mathlib

/-!
Verification of the placeholder-substitution engine and generation pipeline of
the document-generation-hub repository.

The source of truth is `supabase/functions/generate-document/index.ts` (the
"edge function" / Document Assembly Pipeline) together with the client-side
validator `validateParameters` of the dashboard page. Text is modelled as
`List Char`; byte content as `List Nat`.

The edge function's per-parameter substitution (index.ts lines 113-137) runs,
for each `[key, value]` entry of the parameter map in order:
  1. `new RegExp("\\{\\{\\s*" + key + "\\s*\\}\\}", "g")`  (whitespace-tolerant)
  2. `new RegExp("\\{\\{" + key + "\\}\\}", "g")`          (exact)
  3. for Word-family templates only, the split-token heuristic
     `new RegExp("\\{\\{([^}]*" + key + "[^}]*)\\}\\}", "g")`, whose callback
     returns the value whenever the match contains the key (always true by
     construction of the pattern).
each as a JavaScript global `String.replace`: scan left to right, replace the
leftmost match, continue scanning after the inserted replacement (the
replacement itself is not re-scanned within the same pass). Passes 1 and 2
receive the value as a **string** second argument, so `String.replace`
interprets the replacement patterns of ECMA-262 GetSubstitution in it:
`$$` inserts `$`, `$&` the matched text, a dollar followed by a backquote the
portion of the input before the match, `$'` the portion after the match
(`$n` and a dollar followed by `<` are inserted literally, since the built
regexes contain no capture groups and no named groups); this expansion is
modelled by `expandRepl`/`replStr`. Pass 3 uses a **callback**, whose return
value is inserted literally; this literal insertion is modelled by `scan`.

Parameter names are constrained at definition time to `[A-Za-z0-9_]+`
(the `parameter_name` zod schema of the template-management page), so the
interpolated regexes are literal on the key; the matchers below implement the
regexes' semantics for such keys (for them the greedy `\s*` / `[^}]*` with
backtracking is equivalent to maximal munch, since key characters and `}` are
not whitespace).
-/

/-- JavaScript `\s` (and `String.prototype.trim`) white space set:
tab, LF, VT, FF, CR, space, NBSP, Ogham space, U+2000-200A, LS, PS,
narrow NBSP, MM space, ideographic space, BOM. -/
def isWsChar (c : Char) : Bool :=
  let n := c.toNat
  (9 ≤ n && n ≤ 13) || n == 32 || n == 160 || n == 5760 ||
  (8192 ≤ n && n ≤ 8202) || n == 8232 || n == 8233 || n == 8239 ||
  n == 8287 || n == 12288 || n == 65279

/-- Characters allowed in a parameter name: `[A-Za-z0-9_]`
(the `parameter_name` schema of the template upload form),
by ASCII code point. -/
def isIdChar (c : Char) : Bool :=
  let n := c.toNat
  (97 ≤ n && n ≤ 122) || (65 ≤ n && n ≤ 90) || (48 ≤ n && n ≤ 57) || n == 95

/-- A well-formed parameter name: nonempty, only `[A-Za-z0-9_]` characters. -/
def validKey (k : List Char) : Prop := k ≠ [] ∧ ∀ c ∈ k, isIdChar c = true

instance : DecidablePred validKey := fun k => by
  unfold validKey; infer_instance

theorem char_ne_of_toNat_ne {c d : Char} (h : c.toNat ≠ d.toNat) : c ≠ d :=
  fun he => h (he ▸ rfl)

theorem idChar_bounds {c : Char} (h : isIdChar c = true) :
    48 ≤ c.toNat ∧ c.toNat ≤ 122 := by
  simp only [isIdChar, Bool.or_eq_true, Bool.and_eq_true, decide_eq_true_eq,
    beq_iff_eq, Nat.le_refl] at h
  omega

theorem idChar_not_ws {c : Char} (h : isIdChar c = true) : isWsChar c = false := by
  obtain ⟨h1, h2⟩ := idChar_bounds h
  simp only [isIdChar, Bool.or_eq_true, Bool.and_eq_true, decide_eq_true_eq,
    beq_iff_eq] at h
  simp only [isWsChar, Bool.or_eq_false_iff, Bool.and_eq_false_iff,
    decide_eq_false_iff_not, beq_eq_false_iff_ne, ne_eq, not_le]
  omega

theorem lbrace_toNat : ('{' : Char).toNat = 123 := by decide

theorem rbrace_toNat : ('}' : Char).toNat = 125 := by decide

theorem idChar_ne_lbrace {c : Char} (h : isIdChar c = true) : c ≠ '{' := by
  obtain ⟨h1, h2⟩ := idChar_bounds h
  refine char_ne_of_toNat_ne ?_
  rw [lbrace_toNat]; omega

theorem idChar_ne_rbrace {c : Char} (h : isIdChar c = true) : c ≠ '}' := by
  obtain ⟨h1, h2⟩ := idChar_bounds h
  refine char_ne_of_toNat_ne ?_
  rw [rbrace_toNat]; omega

theorem ws_ne_lbrace {c : Char} (h : isWsChar c = true) : c ≠ '{' := by
  simp only [isWsChar, Bool.or_eq_true, Bool.and_eq_true, decide_eq_true_eq,
    beq_iff_eq] at h
  refine char_ne_of_toNat_ne ?_
  rw [lbrace_toNat]; omega

theorem ws_ne_rbrace {c : Char} (h : isWsChar c = true) : c ≠ '}' := by
  simp only [isWsChar, Bool.or_eq_true, Bool.and_eq_true, decide_eq_true_eq,
    beq_iff_eq] at h
  refine char_ne_of_toNat_ne ?_
  rw [rbrace_toNat]; omega

theorem idChar_not_ws' {c : Char} (h : isIdChar c = true) : ¬ isWsChar c = true := by
  rw [idChar_not_ws h]; simp

/-- Matcher for the whitespace-tolerant pattern `\{\{\s*key\s*\}\}` at the
head of a text. Returns the remainder after the match. Implements the regex's
leftmost-match attempt at one position for identifier keys. -/
def matchWs (k : List Char) (s : List Char) : Option (List Char) :=
  match s with
  | c1 :: c2 :: t =>
    if c1 = '{' ∧ c2 = '{' then
      let t1 := t.dropWhile isWsChar
      if k.isPrefixOf t1 then
        match (t1.drop k.length).dropWhile isWsChar with
        | d1 :: d2 :: r => if d1 = '}' ∧ d2 = '}' then some r else none
        | _ => none
      else none
    else none
  | _ => none

/-- Matcher for the exact pattern `\{\{key\}\}` at the head of a text. -/
def matchExact (k : List Char) (s : List Char) : Option (List Char) :=
  let pat := '{' :: '{' :: (k ++ ['}', '}'])
  if pat.isPrefixOf s then some (s.drop pat.length) else none

/-- Substring test `containsSub p s`: `p` occurs as a contiguous substring of `s`
(JavaScript `s.includes(p)`). -/
def containsSub (p s : List Char) : Bool :=
  s.tails.any (fun t => p.isPrefixOf t)

/-- Characterization of `containsSub` as an explicit decomposition. -/
theorem containsSub_iff {p s : List Char} :
    containsSub p s = true ↔ ∃ a b, s = a ++ p ++ b := by
  unfold containsSub
  rw [List.any_eq_true]
  constructor
  · rintro ⟨t, ht, hp⟩
    rw [List.mem_tails] at ht
    obtain ⟨a, ha⟩ := ht
    obtain ⟨b, hb⟩ := (List.isPrefixOf_iff_prefix).mp hp
    exact ⟨a, b, by rw [← ha, ← hb, List.append_assoc]⟩
  · rintro ⟨a, b, rfl⟩
    refine ⟨p ++ b, ?_, ?_⟩
    · rw [List.mem_tails]
      exact ⟨a, by rw [List.append_assoc]⟩
    · rw [List.isPrefixOf_iff_prefix]
      exact ⟨b, rfl⟩

/-- Matcher for the Word split-token heuristic `\{\{([^}]*key[^}]*)\}\}` at
the head of a text: `{{`, then a maximal run of non-`}` characters that must
contain the key as a substring, then `}}`. The source's replacement callback
returns the value whenever the matched span contains the key, which is always
true by construction of the pattern, so the span is unconditionally replaced. -/
def matchSplit (k : List Char) (s : List Char) : Option (List Char) :=
  match s with
  | c1 :: c2 :: t =>
    if c1 = '{' ∧ c2 = '{' then
      let run := t.takeWhile (fun c => c ≠ '}')
      if containsSub k run then
        match t.drop run.length with
        | d1 :: d2 :: r => if d1 = '}' ∧ d2 = '}' then some r else none
        | _ => none
      else none
    else none
  | _ => none

/-- One global-replace pass with **literal** insertion of the replacement,
driven by a head-matcher `M`: scan left to right; at each position, if `M`
matches, emit the replacement `v` verbatim and continue after the match (the
inserted `v` is not re-scanned in this pass); otherwise copy one character.
This is the semantics of `String.replace(regexp_g, callback)` whose callback
returns `v` — the split-token pass of index.ts 130-135; the string-argument
passes are `replStr` below, which additionally performs the `$`-pattern
expansion of the replacement string. `fuel` bounds recursion depth; it is set
to the text length by `scan` below (every successful match consumes at least
the head character, so the fuel is never exhausted). -/
def scanF (M : List Char → Option (List Char)) (v : List Char) :
    Nat → List Char → List Char
  | 0, s => s
  | _ + 1, [] => []
  | fuel + 1, c :: rest =>
    match M (c :: rest) with
    | some r =>
      if r.length ≤ rest.length then v ++ scanF M v fuel r
      else c :: scanF M v fuel rest
    | none => c :: scanF M v fuel rest

/-- One global-replace pass over a text (see `scanF`). -/
def scan (M : List Char → Option (List Char)) (v : List Char)
    (s : List Char) : List Char :=
  scanF M v s.length s

theorem scanF_congr {M : List Char → Option (List Char)} {v : List Char} :
    ∀ {f g : Nat} {s : List Char}, s.length ≤ f → s.length ≤ g →
      scanF M v f s = scanF M v g s := by
  intro f
  induction f with
  | zero =>
    intro g s hf _
    have : s = [] := List.length_eq_zero.mp (Nat.le_zero.mp hf)
    subst this
    cases g <;> rfl
  | succ f ih =>
    intro g s hf hg
    cases s with
    | nil => cases g <;> rfl
    | cons c rest =>
      cases g with
      | zero => simp at hg
      | succ g =>
        simp only [scanF]
        cases hM : M (c :: rest) with
        | some r =>
          simp only []
          by_cases hr : r.length ≤ rest.length
          · rw [if_pos hr, if_pos hr,
              ih (Nat.le_trans hr (Nat.le_of_succ_le_succ hf))
                 (Nat.le_trans hr (Nat.le_of_succ_le_succ hg))]
          · rw [if_neg hr, if_neg hr,
              ih (Nat.le_of_succ_le_succ hf) (Nat.le_of_succ_le_succ hg)]
        | none =>
          simp only []
          rw [ih (Nat.le_of_succ_le_succ hf) (Nat.le_of_succ_le_succ hg)]

theorem scan_nil {M : List Char → Option (List Char)} {v : List Char} :
    scan M v [] = [] := rfl

theorem scan_cons_match {M : List Char → Option (List Char)} {v : List Char}
    {c : Char} {rest r : List Char} (hM : M (c :: rest) = some r)
    (hr : r.length ≤ rest.length) :
    scan M v (c :: rest) = v ++ scan M v r := by
  unfold scan
  simp only [List.length_cons, scanF, hM, if_pos hr]
  rw [scanF_congr hr (Nat.le_refl _)]

theorem scan_cons_nomatch {M : List Char → Option (List Char)} {v : List Char}
    {c : Char} {rest : List Char} (hM : M (c :: rest) = none) :
    scan M v (c :: rest) = c :: scan M v rest := by
  unfold scan
  simp only [List.length_cons, scanF, hM]

/-- Expansion of a replacement string by JavaScript `String.replace` when the
second argument is a string (ECMA-262 GetSubstitution): `$$` inserts `$`,
`$&` inserts the matched text, a dollar followed by the character of code 96
(backquote) inserts `before` (the portion of the pass input preceding the
match), a dollar followed by the character of code 39 (apostrophe) inserts
`after` (the portion following the match); any other character, and any other
`$`-sequence, is copied literally — the regexes built in index.ts 117-124
contain no capture groups and no named groups, so `$n` and a dollar followed
by `<` fall in the literal case. -/
def expandRepl (matched before after : List Char) : List Char → List Char
  | [] => []
  | [c] => [c]
  | c :: d :: t =>
    if c = '$' then
      if d = '$' then '$' :: expandRepl matched before after t
      else if d = '&' then matched ++ expandRepl matched before after t
      else if d.toNat = 96 then before ++ expandRepl matched before after t
      else if d.toNat = 39 then after ++ expandRepl matched before after t
      else '$' :: d :: expandRepl matched before after t
    else c :: expandRepl matched before after (d :: t)

/-- One global-replace pass with a **string** replacement argument
(`String.replace(regexp_g, stringValue)`, the passes of index.ts 122-124):
like `scanF`, but each match inserts `expandRepl matched before after v`,
where `matched` is the matched text, `before` is the prefix of the pass
input `orig` preceding the match (tracked by the position counter `pos`),
and `after` is the remainder of the input following the match. JavaScript
replace scans the original string of the pass, so `before`/`after` refer to
`orig`, never to previously produced output. -/
def replStrF (M : List Char → Option (List Char)) (v orig : List Char) :
    Nat → Nat → List Char → List Char
  | 0, _, s => s
  | _ + 1, _, [] => []
  | fuel + 1, pos, c :: rest =>
    match M (c :: rest) with
    | some r =>
      if r.length ≤ rest.length then
        expandRepl ((c :: rest).take (rest.length + 1 - r.length))
            (orig.take pos) r v
          ++ replStrF M v orig fuel (pos + (rest.length + 1 - r.length)) r
      else c :: replStrF M v orig fuel (pos + 1) rest
    | none => c :: replStrF M v orig fuel (pos + 1) rest

/-- One string-argument global-replace pass over a text (see `replStrF`). -/
def replStr (M : List Char → Option (List Char)) (v s : List Char) :
    List Char :=
  replStrF M v s s.length 0 s

/-- A replacement string containing no `$` expands to itself. -/
theorem expandRepl_noDollar {matched before after : List Char} :
    ∀ {v : List Char}, (∀ c ∈ v, c ≠ '$') →
      expandRepl matched before after v = v := by
  intro v
  induction v with
  | nil => intro _; rfl
  | cons c t ih =>
    intro h
    have hc : c ≠ '$' := h c (List.mem_cons_self c t)
    cases t with
    | nil => rfl
    | cons d t' =>
      simp only [expandRepl, if_neg hc]
      rw [ih (fun e he => h e (List.mem_cons_of_mem c he))]

/-- For a replacement value containing no `$`, the string-argument pass
coincides with the literal pass. -/
theorem replStrF_eq_scanF {M : List Char → Option (List Char)}
    {v orig : List Char} (hd : ∀ c ∈ v, c ≠ '$') :
    ∀ (fuel pos : Nat) (s : List Char),
      replStrF M v orig fuel pos s = scanF M v fuel s := by
  intro fuel
  induction fuel with
  | zero => intro pos s; rfl
  | succ fuel ih =>
    intro pos s
    cases s with
    | nil => rfl
    | cons c rest =>
      simp only [replStrF, scanF]
      cases hM : M (c :: rest) with
      | some r =>
        simp only []
        by_cases hr : r.length ≤ rest.length
        · rw [if_pos hr, if_pos hr, expandRepl_noDollar hd, ih]
        · rw [if_neg hr, if_neg hr, ih]
      | none =>
        simp only []
        rw [ih]

/-- For a replacement value containing no `$`, a string-argument pass equals
the literal pass. -/
theorem replStr_eq_scan {M : List Char → Option (List Char)} {v : List Char}
    (hd : ∀ c ∈ v, c ≠ '$') (s : List Char) :
    replStr M v s = scan M v s :=
  replStrF_eq_scanF hd s.length 0 s

/-- A string-argument pass whose matcher never fires on any suffix is the
identity, whatever the replacement value. -/
theorem replStrF_id {M : List Char → Option (List Char)} {v orig : List Char} :
    ∀ (fuel pos : Nat) {s : List Char},
      (∀ x1 x2, s = x1 ++ x2 → M x2 = none) →
      replStrF M v orig fuel pos s = s := by
  intro fuel
  induction fuel with
  | zero => intro pos s _; rfl
  | succ fuel ih =>
    intro pos s hno
    cases s with
    | nil => rfl
    | cons c rest =>
      have h0 : M (c :: rest) = none := hno [] (c :: rest) rfl
      simp only [replStrF, h0]
      rw [ih (pos + 1) (fun x1 x2 hx => hno (c :: x1) x2 (by rw [hx]; rfl))]

/-- A string-argument pass with an everywhere-failing matcher is the
identity (see `replStrF_id`). -/
theorem replStr_id {M : List Char → Option (List Char)} {v s : List Char}
    (hno : ∀ x1 x2, s = x1 ++ x2 → M x2 = none) : replStr M v s = s :=
  replStrF_id s.length 0 hno

/-- The span consumed by a whitespace-tolerant match for key `k`:
`{{`, whitespace `w1`, `k`, whitespace `w2`, `}}`. -/
def wsSpan (k w1 w2 : List Char) : List Char :=
  '{' :: '{' :: (w1 ++ k ++ w2 ++ ['}', '}'])

theorem ws_not_id {c : Char} (h : isWsChar c = true) : isIdChar c = false := by
  cases hid : isIdChar c with
  | false => rfl
  | true => rw [idChar_not_ws hid] at h; exact absurd h (by simp)

theorem dropWhile_ws_append {w : List Char} (hw : ∀ c ∈ w, isWsChar c = true)
    (a : Char) (ha : isWsChar a = false) (t : List Char) :
    (w ++ a :: t).dropWhile isWsChar = a :: t := by
  induction w with
  | nil => simp [List.dropWhile_cons, ha]
  | cons b w ih =>
    have hb := hw b (by simp)
    simp only [List.cons_append, List.dropWhile_cons, hb, if_true]
    exact ih (fun c hc => hw c (by simp [hc]))

theorem matchWs_eq (k : List Char) (c1 c2 : Char) (t : List Char) :
    matchWs k (c1 :: c2 :: t) =
      if c1 = '{' ∧ c2 = '{' then
        if k.isPrefixOf (t.dropWhile isWsChar) then
          match ((t.dropWhile isWsChar).drop k.length).dropWhile isWsChar with
          | d1 :: d2 :: r => if d1 = '}' ∧ d2 = '}' then some r else none
          | _ => none
        else none
      else none := rfl

theorem matchWs_decomp {k u r : List Char} (h : matchWs k u = some r) :
    ∃ w1 w2, (∀ c ∈ w1, isWsChar c = true) ∧ (∀ c ∈ w2, isWsChar c = true) ∧
      u = wsSpan k w1 w2 ++ r := by
  rcases u with _ | ⟨c1, u⟩
  · simp [matchWs] at h
  rcases u with _ | ⟨c2, t⟩
  · simp [matchWs] at h
  rw [matchWs_eq] at h
  by_cases hbr : c1 = '{' ∧ c2 = '{'
  · rw [if_pos hbr] at h
    obtain ⟨rfl, rfl⟩ := hbr
    by_cases hp : k.isPrefixOf (t.dropWhile isWsChar)
    · rw [if_pos hp] at h
      obtain ⟨z, hz⟩ := (List.isPrefixOf_iff_prefix).mp hp
      have ht : t = t.takeWhile isWsChar ++ (k ++ z) := by
        rw [hz, List.takeWhile_append_dropWhile]
      have hdrop : (t.dropWhile isWsChar).drop k.length = z := by
        rw [← hz, List.drop_left]
      rw [hdrop] at h
      rcases hz2 : z.dropWhile isWsChar with _ | ⟨d1, z2⟩
      · rw [hz2] at h; exact absurd h (by simp)
      rcases z2 with _ | ⟨d2, r'⟩
      · rw [hz2] at h; exact absurd h (by simp)
      rw [hz2] at h
      replace h : (if d1 = '}' ∧ d2 = '}' then some r' else none) = some r := h
      by_cases hbr2 : d1 = '}' ∧ d2 = '}'
      · rw [if_pos hbr2] at h
        obtain ⟨rfl, rfl⟩ := hbr2
        have hr : r' = r := by simpa using h
        subst hr
        have hzz : z = z.takeWhile isWsChar ++ ('}' :: '}' :: r') := by
          conv_lhs => rw [← List.takeWhile_append_dropWhile (p := isWsChar) (l := z)]
          rw [hz2]
        rw [hzz] at ht
        refine ⟨t.takeWhile isWsChar, z.takeWhile isWsChar,
          fun c hc => List.mem_takeWhile_imp hc,
          fun c hc => List.mem_takeWhile_imp hc, ?_⟩
        rw [wsSpan]
        simp only [List.cons_append, List.append_assoc, List.nil_append]
        conv_lhs => rw [ht]
      · rw [if_neg hbr2] at h; exact absurd h (by simp)
    · rw [if_neg hp] at h; exact absurd h (by simp)
  · rw [if_neg hbr] at h; exact absurd h (by simp)

theorem matchWs_full {k w1 w2 : List Char} (hk : validKey k)
    (h1 : ∀ c ∈ w1, isWsChar c = true) (h2 : ∀ c ∈ w2, isWsChar c = true)
    (t : List Char) : matchWs k (wsSpan k w1 w2 ++ t) = some t := by
  obtain ⟨hne, hid⟩ := hk
  obtain ⟨k0, k', rfl⟩ := List.exists_cons_of_ne_nil hne
  have hshape : wsSpan (k0 :: k') w1 w2 ++ t =
      '{' :: '{' :: (w1 ++ (k0 :: (k' ++ (w2 ++ ('}' :: '}' :: t))))) := by
    rw [wsSpan]; simp [List.append_assoc]
  rw [hshape, matchWs_eq, if_pos ⟨rfl, rfl⟩]
  have hd1 : (w1 ++ (k0 :: (k' ++ (w2 ++ ('}' :: '}' :: t))))).dropWhile isWsChar
      = k0 :: (k' ++ (w2 ++ ('}' :: '}' :: t))) :=
    dropWhile_ws_append h1 k0 (idChar_not_ws (hid k0 (List.mem_cons_self k0 k'))) _
  rw [hd1]
  have hp : (k0 :: k').isPrefixOf (k0 :: (k' ++ (w2 ++ ('}' :: '}' :: t)))) := by
    rw [List.isPrefixOf_iff_prefix]
    exact ⟨w2 ++ ('}' :: '}' :: t), by simp⟩
  rw [if_pos hp]
  have hd2 : (k0 :: (k' ++ (w2 ++ ('}' :: '}' :: t)))).drop (k0 :: k').length
      = w2 ++ ('}' :: '}' :: t) := by
    simp only [List.length_cons, List.drop_succ_cons]
    exact List.drop_left k' _
  rw [hd2]
  have hd3 : (w2 ++ ('}' :: '}' :: t)).dropWhile isWsChar = '}' :: '}' :: t :=
    dropWhile_ws_append h2 '}' (by decide) ('}' :: t)
  rw [hd3]
  rfl

theorem wsSpan_length {k w1 w2 : List Char} :
    (wsSpan k w1 w2).length = k.length + w1.length + w2.length + 4 := by
  rw [wsSpan]; simp; omega

theorem matchWs_shrink {k u r : List Char} (h : matchWs k u = some r) :
    r.length + 4 ≤ u.length := by
  obtain ⟨w1, w2, _, _, hu⟩ := matchWs_decomp h
  rw [hu, List.length_append, wsSpan_length]
  omega

theorem matchWs_some_shape {k u r : List Char} (h : matchWs k u = some r) :
    ∃ t, u = '{' :: '{' :: t := by
  obtain ⟨w1, w2, _, _, hu⟩ := matchWs_decomp h
  rw [hu, wsSpan]
  exact ⟨_, rfl⟩

theorem matchWs_none_of_head {k : List Char} {c : Char} {u : List Char}
    (hc : c ≠ '{') : matchWs k (c :: u) = none := by
  cases hM : matchWs k (c :: u) with
  | none => rfl
  | some r =>
    obtain ⟨t, ht⟩ := matchWs_some_shape hM
    cases ht
    exact absurd rfl hc

theorem matchWs_none_of_second {k : List Char} {c d : Char} {u : List Char}
    (hd : d ≠ '{') : matchWs k (c :: d :: u) = none := by
  cases hM : matchWs k (c :: d :: u) with
  | none => rfl
  | some r =>
    obtain ⟨t, ht⟩ := matchWs_some_shape hM
    cases ht
    exact absurd rfl hd

theorem afterKey_headNotId {w : List Char} (hw : ∀ c ∈ w, isWsChar c = true)
    (r : List Char) :
    ∀ c, (w ++ '}' :: '}' :: r).head? = some c → isIdChar c = false := by
  intro c hc
  cases w with
  | nil =>
    simp only [List.nil_append, List.head?_cons, Option.some.injEq] at hc
    subst hc; decide
  | cons w0 w' =>
    simp only [List.cons_append, List.head?_cons, Option.some.injEq] at hc
    subst hc
    exact ws_not_id (hw w0 (List.mem_cons_self w0 w'))

theorem key_prefix_unique_le {a b za zb : List Char}
    (hvb : validKey b) (hle : a.length ≤ b.length)
    (heq : a ++ za = b ++ zb)
    (hza : ∀ c, za.head? = some c → isIdChar c = false) : a = b := by
  have hta : a = b.take a.length := by
    have h3 : (a ++ za).take a.length = (b ++ zb).take a.length := by rw [heq]
    rw [List.take_left, List.take_append_of_le_length hle] at h3
    exact h3
  by_cases hab : a.length = b.length
  · rw [hta, hab, List.take_length]
  · have hlt : a.length < b.length := lt_of_le_of_ne hle hab
    obtain ⟨d, hd⟩ : ∃ d, b = a ++ d := by
      refine ⟨b.drop a.length, ?_⟩
      conv_lhs => rw [← List.take_append_drop a.length b]
      rw [← hta]
    have hdne : d ≠ [] := by
      intro hnil
      rw [hnil, List.append_nil] at hd
      exact hab (by rw [hd])
    obtain ⟨d0, d', rfl⟩ := List.exists_cons_of_ne_nil hdne
    have hza2 : za = (d0 :: d') ++ zb := by
      apply List.append_cancel_left
      rw [heq, hd, List.append_assoc]
    have hd0id : isIdChar d0 = true := by
      refine hvb.2 d0 ?_
      rw [hd]
      exact List.mem_append_right a (List.mem_cons_self d0 d')
    have : isIdChar d0 = false := by
      apply hza d0
      rw [hza2]
      rfl
    rw [hd0id] at this
    exact absurd this (by simp)

theorem key_prefix_unique {a b za zb : List Char}
    (hva : validKey a) (hvb : validKey b)
    (heq : a ++ za = b ++ zb)
    (hza : ∀ c, za.head? = some c → isIdChar c = false)
    (hzb : ∀ c, zb.head? = some c → isIdChar c = false) : a = b := by
  rcases Nat.le_total a.length b.length with hle | hle
  · exact key_prefix_unique_le hvb hle heq hza
  · exact (key_prefix_unique_le hva hle heq.symm hzb).symm

theorem matchWs_unique {a b u ra rb : List Char} (hva : validKey a)
    (hvb : validKey b) (hA : matchWs a u = some ra) (hB : matchWs b u = some rb) :
    a = b ∧ ra = rb := by
  obtain ⟨w1, w2, hw1, hw2, hu1⟩ := matchWs_decomp hA
  obtain ⟨x1, x2, hx1, hx2, hu2⟩ := matchWs_decomp hB
  obtain ⟨a0, a', ha⟩ := List.exists_cons_of_ne_nil hva.1
  obtain ⟨b0, b', hb⟩ := List.exists_cons_of_ne_nil hvb.1
  have hshape1 : u = '{' :: '{' :: (w1 ++ (a0 :: (a' ++ (w2 ++ ('}' :: '}' :: ra))))) := by
    rw [hu1, wsSpan, ha]; simp [List.append_assoc]
  have hshape2 : u = '{' :: '{' :: (x1 ++ (b0 :: (b' ++ (x2 ++ ('}' :: '}' :: rb))))) := by
    rw [hu2, wsSpan, hb]; simp [List.append_assoc]
  have hT : w1 ++ (a0 :: (a' ++ (w2 ++ ('}' :: '}' :: ra))))
      = x1 ++ (b0 :: (b' ++ (x2 ++ ('}' :: '}' :: rb)))) := by
    have h := hshape1.symm.trans hshape2
    simpa using h
  have hdA : (w1 ++ (a0 :: (a' ++ (w2 ++ ('}' :: '}' :: ra))))).dropWhile isWsChar
      = a0 :: (a' ++ (w2 ++ ('}' :: '}' :: ra))) :=
    dropWhile_ws_append hw1 a0
      (idChar_not_ws (hva.2 a0 (by rw [ha]; exact List.mem_cons_self a0 a'))) _
  have hdB : (x1 ++ (b0 :: (b' ++ (x2 ++ ('}' :: '}' :: rb))))).dropWhile isWsChar
      = b0 :: (b' ++ (x2 ++ ('}' :: '}' :: rb))) :=
    dropWhile_ws_append hx1 b0
      (idChar_not_ws (hvb.2 b0 (by rw [hb]; exact List.mem_cons_self b0 b'))) _
  have ht1 : a0 :: (a' ++ (w2 ++ ('}' :: '}' :: ra)))
      = b0 :: (b' ++ (x2 ++ ('}' :: '}' :: rb))) := by
    rw [← hdA, ← hdB, hT]
  have heq : (a0 :: a') ++ (w2 ++ ('}' :: '}' :: ra))
      = (b0 :: b') ++ (x2 ++ ('}' :: '}' :: rb)) := by
    simpa using ht1
  have hab : a = b := by
    rw [ha, hb]
    exact key_prefix_unique (ha ▸ hva) (hb ▸ hvb) heq
      (afterKey_headNotId hw2 ra) (afterKey_headNotId hx2 rb)
  refine ⟨hab, ?_⟩
  have : some ra = some rb := by rw [← hA, ← hB, hab]
  simpa using this

theorem mid_no_lbrace {k w1 w2 : List Char} (hk : validKey k)
    (h1 : ∀ c ∈ w1, isWsChar c = true) (h2 : ∀ c ∈ w2, isWsChar c = true) :
    ∀ c ∈ w1 ++ k ++ w2 ++ ['}', '}'], c ≠ '{' := by
  intro c hc
  simp only [List.append_assoc, List.mem_append, List.mem_cons,
    List.not_mem_nil, or_false] at hc
  rcases hc with hc | hc | hc | hc
  · exact ws_ne_lbrace (h1 c hc)
  · exact idChar_ne_lbrace (hk.2 c hc)
  · exact ws_ne_lbrace (h2 c hc)
  · rcases hc with rfl | rfl <;> decide

/-- A whitespace-tolerant match never straddles from a nonempty prefix `x`
into a following `{{`: the whole matched span lies inside `x`. -/
theorem matchWs_not_straddle {k x t r : List Char} (hk : validKey k)
    (hx : x ≠ []) (h : matchWs k (x ++ '{' :: '{' :: t) = some r) :
    ∃ w1 w2 x', (∀ c ∈ w1, isWsChar c = true) ∧ (∀ c ∈ w2, isWsChar c = true) ∧
      x = wsSpan k w1 w2 ++ x' ∧ r = x' ++ '{' :: '{' :: t := by
  obtain ⟨w1, w2, hw1, hw2, hu⟩ := matchWs_decomp h
  have hlen : (wsSpan k w1 w2).length ≤ x.length := by
    by_contra hgt
    push_neg at hgt
    have hdropx : '{' :: '{' :: t = (wsSpan k w1 w2).drop x.length ++ r := by
      have hcong := congrArg (List.drop x.length) hu
      rw [List.drop_left] at hcong
      rw [List.drop_append_of_le_length (le_of_lt hgt)] at hcong
      exact hcong
    obtain ⟨x0, x'', rfl⟩ := List.exists_cons_of_ne_nil hx
    cases x'' with
    | nil =>
      rw [wsSpan] at hdropx
      simp only [List.length_cons, List.length_nil, List.drop_succ_cons,
        List.drop_zero] at hdropx
      injection hdropx with _ h2
      have hmidne : (w1 ++ k ++ w2 ++ ['}', '}']) ≠ [] := by
        simp [hk.1]
      obtain ⟨m0, mid', hm⟩ := List.exists_cons_of_ne_nil hmidne
      rw [hm] at h2
      injection h2 with h2 _
      refine absurd h2.symm (mid_no_lbrace hk hw1 hw2 m0 ?_)
      rw [hm]
      exact List.mem_cons_self m0 mid'
    | cons x1 x''' =>
      rw [wsSpan] at hdropx
      simp only [List.length_cons, List.drop_succ_cons] at hdropx
      have hdne : (w1 ++ k ++ w2 ++ ['}', '}']).drop x'''.length ≠ [] := by
        intro hnil
        have := congrArg List.length hnil
        rw [List.length_drop] at this
        rw [wsSpan] at hgt
        simp only [List.length_cons] at hgt
        simp only [List.length_nil] at this
        omega
      obtain ⟨d0, d', hd⟩ := List.exists_cons_of_ne_nil hdne
      rw [hd] at hdropx
      injection hdropx with h1 _
      have hd0mem : d0 ∈ w1 ++ k ++ w2 ++ ['}', '}'] := by
        refine List.drop_subset x'''.length _ ?_
        rw [hd]
        exact List.mem_cons_self d0 d'
      exact absurd h1.symm (mid_no_lbrace hk hw1 hw2 d0 hd0mem)
  refine ⟨w1, w2, x.drop (wsSpan k w1 w2).length, hw1, hw2, ?_, ?_⟩
  · have htake : x.take (wsSpan k w1 w2).length = wsSpan k w1 w2 := by
      have hcong := congrArg (List.take (wsSpan k w1 w2).length) hu
      rw [List.take_append_of_le_length hlen, List.take_left] at hcong
      exact hcong
    conv_lhs => rw [← List.take_append_drop (wsSpan k w1 w2).length x]
    rw [htake]
  · have hcong := congrArg (List.drop (wsSpan k w1 w2).length) hu
    rw [List.drop_append_of_le_length hlen, List.drop_left] at hcong
    exact hcong.symm

theorem matchWs_at_other_key {k n : List Char} (hk : validKey k) (hn : validKey n)
    (hne : k ≠ n) (t : List Char) :
    matchWs k ('{' :: '{' :: (n ++ ('}' :: '}' :: t))) = none := by
  cases hM : matchWs k ('{' :: '{' :: (n ++ ('}' :: '}' :: t))) with
  | none => rfl
  | some r =>
    have hsh : wsSpan n [] [] ++ t = '{' :: '{' :: (n ++ ('}' :: '}' :: t)) := by
      rw [wsSpan]; simp
    have hfull : matchWs n ('{' :: '{' :: (n ++ ('}' :: '}' :: t))) = some t := by
      rw [← hsh]
      exact matchWs_full hn (by simp) (by simp) t
    exact absurd (matchWs_unique hk hn hM hfull).1 hne

theorem drop_length_takeWhile {p : Char → Bool} {t : List Char} :
    t.drop (t.takeWhile p).length = t.dropWhile p := by
  induction t with
  | nil => rfl
  | cons c t ih =>
    by_cases hc : p c = true
    · simp [List.takeWhile_cons, List.dropWhile_cons, hc, ih]
    · simp [List.takeWhile_cons, List.dropWhile_cons, hc]

theorem exactPat_length {k : List Char} :
    ('{' :: '{' :: (k ++ ['}', '}'])).length = k.length + 4 := by
  simp

theorem matchExact_decomp {k s r : List Char} (h : matchExact k s = some r) :
    s = ('{' :: '{' :: (k ++ ['}', '}'])) ++ r := by
  unfold matchExact at h
  by_cases hp : ('{' :: '{' :: (k ++ ['}', '}'])).isPrefixOf s
  · obtain ⟨z, hz⟩ := (List.isPrefixOf_iff_prefix).mp hp
    rw [if_pos hp] at h
    have hr : s.drop ('{' :: '{' :: (k ++ ['}', '}'])).length = r := by
      simpa using h
    rw [← hz, List.drop_left] at hr
    rw [← hz, hr]
  · rw [if_neg hp] at h
    exact absurd h (by simp)

theorem matchExact_full {k : List Char} (t : List Char) :
    matchExact k (('{' :: '{' :: (k ++ ['}', '}'])) ++ t) = some t := by
  unfold matchExact
  rw [if_pos]
  · rw [List.drop_left]
  · rw [List.isPrefixOf_iff_prefix]
    exact ⟨t, rfl⟩

theorem matchExact_imp_ws {k s r : List Char} (hk : validKey k)
    (h : matchExact k s = some r) : matchWs k s = some r := by
  rw [matchExact_decomp h]
  have hsh : ('{' :: '{' :: (k ++ ['}', '}'])) ++ r = wsSpan k [] [] ++ r := by
    rw [wsSpan]; simp
  rw [hsh]
  exact matchWs_full hk (by simp) (by simp) r

theorem matchExact_shrink {k s r : List Char} (h : matchExact k s = some r) :
    r.length + 4 ≤ s.length := by
  rw [matchExact_decomp h, List.length_append, exactPat_length]
  omega

theorem matchSplit_decomp {k s r : List Char} (h : matchSplit k s = some r) :
    ∃ run, (∀ c ∈ run, c ≠ '}') ∧ containsSub k run = true ∧
      s = '{' :: '{' :: (run ++ ('}' :: '}' :: r)) := by
  rcases s with _ | ⟨c1, s⟩
  · simp [matchSplit] at h
  rcases s with _ | ⟨c2, t⟩
  · simp [matchSplit] at h
  have heq : matchSplit k (c1 :: c2 :: t) =
      if c1 = '{' ∧ c2 = '{' then
        if containsSub k (t.takeWhile (fun c => c ≠ '}')) then
          match t.drop (t.takeWhile (fun c => c ≠ '}')).length with
          | d1 :: d2 :: r => if d1 = '}' ∧ d2 = '}' then some r else none
          | _ => none
        else none
      else none := rfl
  rw [heq] at h
  by_cases hbr : c1 = '{' ∧ c2 = '{'
  · rw [if_pos hbr] at h
    obtain ⟨rfl, rfl⟩ := hbr
    by_cases hcs : containsSub k (t.takeWhile (fun c => c ≠ '}')) = true
    · rw [if_pos hcs] at h
      rcases hdr : t.drop (t.takeWhile (fun c => c ≠ '}')).length with _ | ⟨d1, z2⟩
      · rw [hdr] at h; exact absurd h (by simp)
      rcases z2 with _ | ⟨d2, r'⟩
      · rw [hdr] at h; exact absurd h (by simp)
      rw [hdr] at h
      replace h : (if d1 = '}' ∧ d2 = '}' then some r' else none) = some r := h
      by_cases hbr2 : d1 = '}' ∧ d2 = '}'
      · rw [if_pos hbr2] at h
        obtain ⟨rfl, rfl⟩ := hbr2
        have hr : r' = r := by simpa using h
        subst hr
        refine ⟨t.takeWhile (fun c => c ≠ '}'), ?_, hcs, ?_⟩
        · intro c hc
          have := List.mem_takeWhile_imp hc
          simpa using this
        · have ht : t = t.takeWhile (fun c => c ≠ '}') ++ ('}' :: '}' :: r') := by
            conv_lhs => rw [← List.takeWhile_append_dropWhile
              (p := fun c => decide (c ≠ '}')) (l := t)]
            congr 1
            rw [← hdr]
            exact drop_length_takeWhile.symm
          conv_lhs => rw [ht]
      · rw [if_neg hbr2] at h; exact absurd h (by simp)
    · rw [if_neg (by simpa using hcs)] at h; exact absurd h (by simp)
  · rw [if_neg hbr] at h; exact absurd h (by simp)

theorem matchSplit_shrink {k s r : List Char} (h : matchSplit k s = some r) :
    r.length + 4 ≤ s.length := by
  obtain ⟨run, _, _, hs⟩ := matchSplit_decomp h
  rw [hs]
  simp


/-- The per-parameter substitution of the edge function (index.ts 113-137):
whitespace-tolerant pass, then exact pass, then (Word family only) the
split-token pass, each a global replace of key `k` by value `v`. The first
two passes hand the value to `String.replace` as a string, so they perform
the `$`-pattern expansion (`replStr`); the split pass inserts through a
callback, hence literally (`scan`). -/
def substKeyCode (word : Bool) (k v s : List Char) : List Char :=
  if word then
    scan (matchSplit k) v (replStr (matchExact k) v (replStr (matchWs k) v s))
  else
    replStr (matchExact k) v (replStr (matchWs k) v s)

/-- The whole substitution loop of the edge function: fold `substKeyCode`
over the entries of the parameter value map, in map order
(`Object.entries(parameters)`). -/
def substitutePlaceholders (word : Bool) (m : List (List Char × List Char))
    (s : List Char) : List Char :=
  m.foldl (fun acc kv => substKeyCode word kv.1 kv.2 acc) s

/-- Try each map entry's key at the head of the text; return the first
matching entry's value and the remainder after the match. -/
def lookupMatch (m : List (List Char × List Char)) (s : List Char) :
    Option (List Char × List Char) :=
  m.findSome? (fun kv => (matchWs kv.1 s).map (fun r => (kv.2, r)))

/-- One-pass simultaneous substitution, the spec's §4.3 contract: a single
left-to-right scan; at each position, if some parameter's placeholder starts
there, it is replaced by the value and the scan resumes after the placeholder;
inserted values are never re-scanned, for any key. -/
def substSimF (m : List (List Char × List Char)) :
    Nat → List Char → List Char
  | 0, s => s
  | _ + 1, [] => []
  | fuel + 1, c :: rest =>
    match lookupMatch m (c :: rest) with
    | some (v, r) =>
      if r.length ≤ rest.length then v ++ substSimF m fuel r
      else c :: substSimF m fuel rest
    | none => c :: substSimF m fuel rest

/-- One-pass simultaneous substitution (see `substSimF`). -/
def substSim (m : List (List Char × List Char)) (s : List Char) : List Char :=
  substSimF m s.length s

theorem substSimF_congr {m : List (List Char × List Char)} :
    ∀ {f g : Nat} {s : List Char}, s.length ≤ f → s.length ≤ g →
      substSimF m f s = substSimF m g s := by
  intro f
  induction f with
  | zero =>
    intro g s hf _
    have : s = [] := List.length_eq_zero.mp (Nat.le_zero.mp hf)
    subst this
    cases g <;> rfl
  | succ f ih =>
    intro g s hf hg
    cases s with
    | nil => cases g <;> rfl
    | cons c rest =>
      cases g with
      | zero => simp at hg
      | succ g =>
        simp only [substSimF]
        cases hM : lookupMatch m (c :: rest) with
        | some vr =>
          obtain ⟨v, r⟩ := vr
          simp only []
          by_cases hr : r.length ≤ rest.length
          · rw [if_pos hr, if_pos hr,
              ih (Nat.le_trans hr (Nat.le_of_succ_le_succ hf))
                 (Nat.le_trans hr (Nat.le_of_succ_le_succ hg))]
          · rw [if_neg hr, if_neg hr,
              ih (Nat.le_of_succ_le_succ hf) (Nat.le_of_succ_le_succ hg)]
        | none =>
          simp only []
          rw [ih (Nat.le_of_succ_le_succ hf) (Nat.le_of_succ_le_succ hg)]

theorem substSim_nil {m : List (List Char × List Char)} : substSim m [] = [] := rfl

theorem substSim_cons_match {m : List (List Char × List Char)} {c : Char}
    {rest v r : List Char} (hM : lookupMatch m (c :: rest) = some (v, r))
    (hr : r.length ≤ rest.length) :
    substSim m (c :: rest) = v ++ substSim m r := by
  unfold substSim
  simp only [List.length_cons, substSimF, hM, if_pos hr]
  rw [substSimF_congr hr (Nat.le_refl _)]

theorem substSim_cons_nomatch {m : List (List Char × List Char)} {c : Char}
    {rest : List Char} (hM : lookupMatch m (c :: rest) = none) :
    substSim m (c :: rest) = c :: substSim m rest := by
  unfold substSim
  simp only [List.length_cons, substSimF, hM]

/-- If no match starts at any position inside `p`, a scan pass copies `p`. -/
theorem scan_copy {M : List Char → Option (List Char)} {v : List Char} :
    ∀ {p t : List Char},
      (∀ x1 x2, p = x1 ++ x2 → x2 ≠ [] → M (x2 ++ t) = none) →
      scan M v (p ++ t) = p ++ scan M v t := by
  intro p
  induction p with
  | nil => intro t _; rfl
  | cons c p ih =>
    intro t hno
    have h0 : M (c :: (p ++ t)) = none := by
      have := hno [] (c :: p) rfl (by simp)
      simpa using this
    have hstep : scan M v (c :: (p ++ t)) = c :: scan M v (p ++ t) :=
      scan_cons_nomatch h0
    have hih : scan M v (p ++ t) = p ++ scan M v t := by
      refine ih ?_
      intro x1 x2 hx hx2
      exact hno (c :: x1) x2 (by rw [hx]; rfl) hx2
    rw [List.cons_append, hstep, hih, List.cons_append]

/-- If no match starts at any position inside `p`, a simultaneous pass
copies `p`. -/
theorem substSim_copy {m : List (List Char × List Char)} :
    ∀ {p t : List Char},
      (∀ x1 x2, p = x1 ++ x2 → x2 ≠ [] → lookupMatch m (x2 ++ t) = none) →
      substSim m (p ++ t) = p ++ substSim m t := by
  intro p
  induction p with
  | nil => intro t _; rfl
  | cons c p ih =>
    intro t hno
    have h0 : lookupMatch m (c :: (p ++ t)) = none := by
      have := hno [] (c :: p) rfl (by simp)
      simpa using this
    have hstep : substSim m (c :: (p ++ t)) = c :: substSim m (p ++ t) :=
      substSim_cons_nomatch h0
    have hih : substSim m (p ++ t) = p ++ substSim m t := by
      refine ih ?_
      intro x1 x2 hx hx2
      exact hno (c :: x1) x2 (by rw [hx]; rfl) hx2
    rw [List.cons_append, hstep, hih, List.cons_append]

theorem lookupMatch_none_iff {m : List (List Char × List Char)}
    {s : List Char} :
    lookupMatch m s = none ↔ ∀ kv ∈ m, matchWs kv.1 s = none := by
  unfold lookupMatch
  rw [List.findSome?_eq_none_iff]
  constructor
  · intro h kv hm
    have := h kv hm
    cases hx : matchWs kv.1 s with
    | none => rfl
    | some r => rw [hx] at this; simp at this
  · intro h kv hm
    rw [h kv hm]
    rfl

theorem lookupMatch_some {m : List (List Char × List Char)}
    {s : List Char} {v r : List Char}
    (h : lookupMatch m s = some (v, r)) :
    ∃ kv ∈ m, kv.2 = v ∧ matchWs kv.1 s = some r := by
  obtain ⟨kv, hm, hkv⟩ := List.exists_of_findSome?_eq_some h
  cases hx : matchWs kv.1 s with
  | none => rw [hx] at hkv; simp at hkv
  | some r' =>
    rw [hx] at hkv
    simp only [Option.map_some', Option.some.injEq, Prod.mk.injEq] at hkv
    exact ⟨kv, hm, hkv.1, by rw [hx, hkv.2]⟩

/-- Proposition `SubOf v s`: `v` occurs as a contiguous substring of `s` (propositional
form of `containsSub`). -/
def SubOf (v s : List Char) : Prop := ∃ a b, s = a ++ v ++ b

theorem subOf_iff_containsSub {v s : List Char} :
    SubOf v s ↔ containsSub v s = true := containsSub_iff.symm

theorem subOf_nil {v : List Char} (h : SubOf v []) : v = [] := by
  obtain ⟨a, b, hab⟩ := h
  have := congrArg List.length hab
  simp at this
  exact List.length_eq_zero.mp (by omega)

/-- An occurrence of `v` in `x ++ c :: y` with `c ∉ v` lies entirely in `x`
or entirely in `y`. -/
theorem subOf_split {v : List Char} (hv : v ≠ []) {c : Char} (hc : c ∉ v) :
    ∀ {x y : List Char}, SubOf v (x ++ c :: y) → SubOf v x ∨ SubOf v y := by
  intro x
  induction x with
  | nil =>
    intro y h
    obtain ⟨a, b, hab⟩ := h
    cases a with
    | nil =>
      obtain ⟨v0, v', rfl⟩ := List.exists_cons_of_ne_nil hv
      simp only [List.nil_append, List.cons_append] at hab
      injection hab with h1 _
      exact absurd (h1 ▸ List.mem_cons_self v0 v') hc
    | cons a0 a' =>
      simp only [List.nil_append, List.cons_append, List.append_assoc] at hab
      injection hab with _ h2
      exact Or.inr ⟨a', b, by rw [h2, List.append_assoc]⟩
  | cons x0 x' ih =>
    intro y h
    obtain ⟨a, b, hab⟩ := h
    cases a with
    | nil =>
      obtain ⟨v0, v', rfl⟩ := List.exists_cons_of_ne_nil hv
      simp only [List.nil_append, List.cons_append] at hab
      injection hab with h1 h2
      -- h1 : x0 = v0, h2 : x' ++ c :: y = v' ++ b
      rcases Nat.le_total v'.length x'.length with hle | hle
      · -- v' fits inside x'
        have htake : v' = x'.take v'.length := by
          have hcong := congrArg (List.take v'.length) h2.symm
          rw [List.take_left, List.take_append_of_le_length hle] at hcong
          exact hcong
        left
        refine ⟨[], x'.drop v'.length, ?_⟩
        simp only [List.nil_append, List.cons_append]
        rw [← h1]
        have hx : x' = v' ++ x'.drop v'.length := by
          conv_lhs => rw [← List.take_append_drop v'.length x', ← htake]
        conv_lhs => rw [hx]
      · rcases lt_or_eq_of_le hle with hlt | heq
        · -- v' strictly longer than x' : c falls inside v'
          have hcmem : c ∈ v' := by
            have hcong := congrArg (List.take (x'.length + 1)) h2
            have hx1 : (x' ++ c :: y).take (x'.length + 1) = x' ++ [c] := by
              have := @List.take_append Char x' (c :: y) 1
              simpa using this
            rw [hx1, List.take_append_of_le_length (by omega)] at hcong
            have : c ∈ v'.take (x'.length + 1) := by
              rw [← hcong]
              exact List.mem_append_right x' (by simp)
            exact List.take_subset _ _ this
          exact absurd (List.mem_cons_of_mem v0 hcmem) hc
        · -- x' = v' exactly
          have hxv : v' = x' := by
            have hcong := congrArg (List.take v'.length) h2.symm
            rw [List.take_left, List.take_append_of_le_length (le_of_eq heq.symm)] at hcong
            rw [hcong, ← heq, List.take_length]
          left
          exact ⟨[], [], by rw [← h1, hxv]; simp⟩
    | cons a0 a' =>
      simp only [List.cons_append, List.append_assoc] at hab
      injection hab with _ h2
      have hih := ih ⟨a', b, by rw [h2, List.append_assoc]⟩
      rcases hih with hl | hr
      · left
        obtain ⟨p, q, hpq⟩ := hl
        exact ⟨x0 :: p, q, by rw [hpq]; rfl⟩
      · right; exact hr

/-- If every character of `x` avoids `v`, an occurrence of `v` in `x ++ y`
lies in `y`. -/
theorem subOf_right_of_disjoint {v : List Char} (hv : v ≠ []) :
    ∀ {x y : List Char}, (∀ c ∈ x, c ∉ v) → SubOf v (x ++ y) → SubOf v y := by
  intro x
  induction x with
  | nil => intro y _ h; simpa using h
  | cons c x' ih =>
    intro y hdisj h
    rw [List.cons_append] at h
    have := subOf_split hv (hdisj c (List.mem_cons_self c x')) (x := []) (y := x' ++ y) h
    rcases this with hl | hr
    · exact absurd (subOf_nil hl) hv
    · exact ih (fun d hd => hdisj d (List.mem_cons_of_mem c hd)) hr

/-- If every character of `y` avoids `v`, an occurrence of `v` in `x ++ y`
lies in `x`. -/
theorem subOf_left_of_disjoint {v : List Char} (hv : v ≠ []) :
    ∀ {y x : List Char}, (∀ c ∈ y, c ∉ v) → SubOf v (x ++ y) → SubOf v x := by
  intro y
  induction y with
  | nil => intro x _ h; simpa using h
  | cons c y' ih =>
    intro x hdisj h
    have hshift : x ++ c :: y' = (x ++ [c]) ++ y' := by simp
    rw [hshift] at h
    have hmid := ih (fun d hd => hdisj d (List.mem_cons_of_mem c hd)) h
    have := subOf_split hv (hdisj c (List.mem_cons_self c y')) (x := x) (y := []) (by simpa using hmid)
    rcases this with hl | hr
    · exact hl
    · exact absurd (subOf_nil hr) hv

/-- A replacement value that cannot interact with placeholder syntax:
nonempty, containing no braces and no whitespace. -/
def validVal (v : List Char) : Prop :=
  v ≠ [] ∧ ∀ c ∈ v, isWsChar c = false ∧ c ≠ '{' ∧ c ≠ '}'

instance : DecidablePred validVal := fun v => by
  unfold validVal; infer_instance

/-- A good value does not occur inside a whitespace-tolerant match span for a
key it does not occur in. -/
theorem not_subOf_wsSpan {v k w1 w2 : List Char} (hv : validVal v)
    (hknosub : ¬ SubOf v k)
    (h1 : ∀ c ∈ w1, isWsChar c = true) (h2 : ∀ c ∈ w2, isWsChar c = true) :
    ¬ SubOf v (wsSpan k w1 w2) := by
  intro hs
  rw [wsSpan] at hs
  have hlb : '{' ∉ v := fun hm => (hv.2 '{' hm).2.1 rfl
  have hrb : '}' ∉ v := fun hm => (hv.2 '}' hm).2.2 rfl
  have hwsnot : ∀ c, isWsChar c = true → c ∉ v := by
    intro c hws hm
    rw [(hv.2 c hm).1] at hws
    exact absurd hws (by simp)
  have hs1 : SubOf v ('{' :: (w1 ++ k ++ w2 ++ ['}', '}'])) := by
    have := subOf_split hv.1 hlb (x := []) (y := '{' :: (w1 ++ k ++ w2 ++ ['}', '}']))
      (by simpa using hs)
    rcases this with hl | hr
    · exact absurd (subOf_nil hl) hv.1
    · exact hr
  have hs2 : SubOf v (w1 ++ k ++ w2 ++ ['}', '}']) := by
    have := subOf_split hv.1 hlb (x := []) (y := w1 ++ k ++ w2 ++ ['}', '}'])
      (by simpa using hs1)
    rcases this with hl | hr
    · exact absurd (subOf_nil hl) hv.1
    · exact hr
  have hs3 : SubOf v (k ++ (w2 ++ ['}', '}'])) := by
    refine subOf_right_of_disjoint hv.1 (fun c hc => hwsnot c (h1 c hc)) ?_
    have hsh : w1 ++ k ++ w2 ++ ['}', '}'] = w1 ++ (k ++ (w2 ++ ['}', '}'])) := by
      simp [List.append_assoc]
    rw [hsh] at hs2
    exact hs2
  have hs4 : SubOf v k := by
    refine subOf_left_of_disjoint hv.1 ?_ hs3
    intro c hc
    simp only [List.mem_append, List.mem_cons, List.not_mem_nil, or_false] at hc
    rcases hc with hc | hc | hc
    · exact hwsnot c (h2 c hc)
    · subst hc; exact hrb
    · subst hc; exact hrb
  exact hknosub hs4

theorem matchExact_some_shape {k s r : List Char} (h : matchExact k s = some r) :
    ∃ t, s = '{' :: '{' :: t := by
  rw [matchExact_decomp h]
  exact ⟨_, rfl⟩

theorem matchExact_none_of_head {k : List Char} {c : Char} {u : List Char}
    (hc : c ≠ '{') : matchExact k (c :: u) = none := by
  cases hM : matchExact k (c :: u) with
  | none => rfl
  | some r =>
    obtain ⟨t, ht⟩ := matchExact_some_shape hM
    cases ht
    exact absurd rfl hc

/-- A prefix of a whitespace-pass output that ends in `}` and does not contain
the inserted value is already a prefix of the input. -/
theorem prefix_transfer {k v : List Char} (hvne : v ≠ [])
    (hvb : ∀ c ∈ v, c ≠ '{' ∧ c ≠ '}') :
    ∀ (n : Nat) {s p q : List Char}, s.length ≤ n → p = q ++ ['}'] →
      ¬ SubOf v p → (∃ z, scan (matchWs k) v s = p ++ z) →
      ∃ z, s = p ++ z := by
  intro n
  induction n with
  | zero =>
    intro s p q hlen hp _ hpre
    have hs : s = [] := List.length_eq_zero.mp (Nat.le_zero.mp hlen)
    subst hs
    obtain ⟨z, hz⟩ := hpre
    rw [scan_nil] at hz
    have : p = [] := by
      have := congrArg List.length hz
      simp at this
      exact List.length_eq_zero.mp (by omega)
    rw [this] at hp
    exact absurd hp.symm (by simp)
  | succ n ih =>
    intro s p q hlen hp hnsub hpre
    cases s with
    | nil =>
      obtain ⟨z, hz⟩ := hpre
      rw [scan_nil] at hz
      have : p = [] := by
        have := congrArg List.length hz
        simp at this
        exact List.length_eq_zero.mp (by omega)
      rw [this] at hp
      exact absurd hp.symm (by simp)
    | cons c rest =>
      obtain ⟨z, hz⟩ := hpre
      cases hM : matchWs k (c :: rest) with
      | some r =>
        have hshr := matchWs_shrink hM
        simp only [List.length_cons] at hshr
        have hrle : r.length ≤ rest.length := by omega
        rw [scan_cons_match hM hrle] at hz
        -- p ++ z = v ++ scan ... : impossible since p ends in '}' and
        -- v is brace-free and not a substring of p
        exfalso
        rcases Nat.le_total p.length v.length with hle | hle
        · -- p is a prefix of v, but p contains '}'
          have hptake : p = v.take p.length := by
            have hcong := congrArg (List.take p.length) hz
            rw [List.take_left, List.take_append_of_le_length hle] at hcong
            exact hcong.symm
          have hrbmem : '}' ∈ p := by rw [hp]; simp
          have : '}' ∈ v := List.take_subset _ _ (hptake ▸ hrbmem)
          exact (hvb '}' this).2 rfl
        · -- v is a prefix of p : v is a substring of p
          have hvtake : v = p.take v.length := by
            have hcong := congrArg (List.take v.length) hz.symm
            rw [List.take_left, List.take_append_of_le_length hle] at hcong
            exact hcong.symm
          refine hnsub ⟨[], p.drop v.length, ?_⟩
          conv_lhs => rw [← List.take_append_drop v.length p, ← hvtake]
          simp
      | none =>
        rw [scan_cons_nomatch hM] at hz
        cases hpq : p with
        | nil => rw [hpq] at hp; exact absurd hp.symm (by simp)
        | cons p0 p' =>
          rw [hpq, List.cons_append] at hz
          injection hz with hz1 hz2
          cases hp'ne : p' with
          | nil =>
            exact ⟨rest, by rw [hz1]; rfl⟩
          | cons p1 p'' =>
            have hp'shape : ∃ q', p' = q' ++ ['}'] := by
              cases hq : q with
              | nil =>
                rw [hq] at hp
                simp only [List.nil_append] at hp
                rw [hpq] at hp
                injection hp with _ h2
                rw [hp'ne] at h2
                exact absurd h2 (by simp)
              | cons q0 q' =>
                rw [hq] at hp
                rw [hpq] at hp
                injection hp with _ h2
                exact ⟨q', h2⟩
            obtain ⟨q', hq'⟩ := hp'shape
            have hnsub' : ¬ SubOf v p' := by
              intro hsub
              obtain ⟨a, b, hab⟩ := hsub
              exact hnsub ⟨p0 :: a, b, by rw [hpq, hab]; rfl⟩
            have hih := ih (Nat.le_of_succ_le_succ hlen) hq' hnsub' ⟨z, hz2⟩
            obtain ⟨z', hz'⟩ := hih
            exact ⟨z', by rw [hz1, hz', hp'ne, List.cons_append]; rfl⟩

/-- The exact pattern of `matchExact` always ends in `}` and, for a good
value not occurring in the key, cannot contain the value. -/
theorem not_subOf_exactPat {v k : List Char} (hv : validVal v)
    (hknosub : ¬ SubOf v k) :
    ¬ SubOf v ('{' :: '{' :: (k ++ ['}', '}'])) := by
  intro hs
  refine @not_subOf_wsSpan v k [] [] hv hknosub (by simp) (by simp) ?_
  rw [wsSpan]
  simpa using hs

/-- After the whitespace-tolerant pass for `k`/`v`, the exact pass for the
same key and value finds nothing to replace (second pass of index.ts 117-124
is a no-op under these conditions). -/
theorem exact_pass_noop {k v : List Char} (hk : validKey k) (hv : validVal v)
    (hknosub : ¬ SubOf v k) :
    ∀ (n : Nat) (s : List Char), s.length ≤ n →
      scan (matchExact k) v (scan (matchWs k) v s) = scan (matchWs k) v s := by
  intro n
  induction n with
  | zero =>
    intro s hlen
    have hs : s = [] := List.length_eq_zero.mp (Nat.le_zero.mp hlen)
    subst hs
    rfl
  | succ n ih =>
    intro s hlen
    cases s with
    | nil => rfl
    | cons c rest =>
      cases hM : matchWs k (c :: rest) with
      | some r =>
        have hshr := matchWs_shrink hM
        simp only [List.length_cons] at hshr hlen
        have hrle : r.length ≤ rest.length := by omega
        rw [scan_cons_match hM hrle]
        have hcopy : scan (matchExact k) v (v ++ scan (matchWs k) v r)
            = v ++ scan (matchExact k) v (scan (matchWs k) v r) := by
          refine scan_copy ?_
          intro x1 x2 hx hx2
          obtain ⟨h0, x2', rfl⟩ := List.exists_cons_of_ne_nil hx2
          refine matchExact_none_of_head ?_
          have : h0 ∈ v := by
            rw [hx]
            exact List.mem_append_right x1 (List.mem_cons_self h0 x2')
          exact (hv.2 h0 this).2.1
        rw [hcopy, ih r (by omega)]
      | none =>
        rw [scan_cons_nomatch hM]
        have hnone : matchExact k (c :: scan (matchWs k) v rest) = none := by
          cases hE : matchExact k (c :: scan (matchWs k) v rest) with
          | none => rfl
          | some r2 =>
            exfalso
            have hdec := matchExact_decomp hE
            have hpre : ∃ z, scan (matchWs k) v (c :: rest)
                = ('{' :: '{' :: (k ++ ['}', '}'])) ++ z := by
              refine ⟨r2, ?_⟩
              rw [scan_cons_nomatch hM]
              exact hdec
            have hsh : ('{' :: '{' :: (k ++ ['}', '}']))
                = ('{' :: '{' :: (k ++ ['}'])) ++ ['}'] := by simp
            obtain ⟨z, hz⟩ := prefix_transfer hv.1
              (fun c hc => ⟨(hv.2 c hc).2.1, (hv.2 c hc).2.2⟩)
              (c :: rest).length (Nat.le_refl _) hsh
              (not_subOf_exactPat hv hknosub) hpre
            have hws : matchWs k (c :: rest) = some z := by
              rw [hz]
              exact matchExact_imp_ws hk (matchExact_full z)
            rw [hws] at hM
            exact absurd hM (by simp)
        rw [scan_cons_nomatch hnone]
        simp only [List.length_cons] at hlen
        rw [ih rest (by omega)]

theorem lookupMatch_cons {k v : List Char} {m : List (List Char × List Char)}
    {s : List Char} :
    lookupMatch ((k, v) :: m) s =
      match matchWs k s with
      | some r => some (v, r)
      | none => lookupMatch m s := by
  unfold lookupMatch
  rw [List.findSome?_cons]
  cases hM : matchWs k s <;> simp [hM]

theorem lookupMatch_eq_of_mem {m : List (List Char × List Char)}
    {kv : List Char × List Char} {u r : List Char}
    (hmem : kv ∈ m) (hM : matchWs kv.1 u = some r)
    (hothers : ∀ kv2 ∈ m, kv2.1 ≠ kv.1 → matchWs kv2.1 u = none)
    (hdis : m.Pairwise (fun p q => p.1 ≠ q.1)) :
    lookupMatch m u = some (kv.2, r) := by
  induction m with
  | nil => cases hmem
  | cons hd tl ih =>
    rcases List.mem_cons.mp hmem with rfl | htl
    · obtain ⟨k0, v0⟩ := kv
      rw [lookupMatch_cons, hM]
    · obtain ⟨k0, v0⟩ := hd
      have hne : k0 ≠ kv.1 := (List.pairwise_cons.mp hdis).1 kv htl
      have hhdnone : matchWs k0 u = none :=
        hothers (k0, v0) (List.mem_cons_self _ tl) hne
      rw [lookupMatch_cons, hhdnone]
      exact ih htl (fun kv2 h2 => hothers kv2 (List.mem_cons_of_mem _ h2))
        (List.pairwise_cons.mp hdis).2

/-- No whitespace-tolerant match (for any identifier key) starts strictly
inside a whitespace-tolerant span. -/
theorem span_suffix_no_match {k' w1 w2 : List Char} (hk' : validKey k')
    (h1 : ∀ c ∈ w1, isWsChar c = true) (h2 : ∀ c ∈ w2, isWsChar c = true)
    {x1 x2 : List Char} (hsplit : wsSpan k' w1 w2 = x1 ++ x2)
    (hx2 : x2 ≠ []) (hx1 : x1 ≠ []) (kk : List Char) (y : List Char) :
    matchWs kk (x2 ++ y) = none := by
  obtain ⟨a0, x1', rfl⟩ := List.exists_cons_of_ne_nil hx1
  rw [wsSpan] at hsplit
  injection hsplit with ha0 hsplit
  cases x1' with
  | nil =>
    -- x2 = '{' :: mid
    have hx2eq : x2 = '{' :: (w1 ++ k' ++ w2 ++ ['}', '}']) := by
      simpa using hsplit.symm
    have hmidne : (w1 ++ k' ++ w2 ++ ['}', '}']) ≠ [] := by simp
    obtain ⟨m0, mid', hm⟩ := List.exists_cons_of_ne_nil hmidne
    rw [hx2eq, hm, List.cons_append, List.cons_append]
    refine matchWs_none_of_second ?_
    exact mid_no_lbrace hk' h1 h2 m0 (by rw [hm]; exact List.mem_cons_self m0 mid')
  | cons a1 x1'' =>
    injection hsplit with ha1 hsplit
    obtain ⟨h0, x2', rfl⟩ := List.exists_cons_of_ne_nil hx2
    rw [List.cons_append]
    refine matchWs_none_of_head ?_
    refine mid_no_lbrace hk' h1 h2 h0 ?_
    rw [hsplit]
    exact List.mem_append_right x1'' (List.mem_cons_self h0 x2')

theorem wsSpan_append_cons {k w1 w2 t : List Char} :
    wsSpan k w1 w2 ++ t = '{' :: (('{' :: (w1 ++ k ++ w2 ++ ['}', '}'])) ++ t) := rfl

/-- Running the one-pass simultaneous substitution for map `m` after the
whitespace-tolerant pass for `(k, v)` equals the one-pass simultaneous
substitution for `(k, v) :: m`. -/
theorem substSim_compose {k v : List Char} {m : List (List Char × List Char)}
    (hk : validKey k) (hv : validVal v)
    (hmk : ∀ kv ∈ m, validKey kv.1)
    (hmne : ∀ kv ∈ m, kv.1 ≠ k)
    (hvnosub : ∀ kv ∈ m, ¬ SubOf v kv.1)
    (hdis : m.Pairwise (fun p q => p.1 ≠ q.1)) :
    ∀ (n : Nat) (s : List Char), s.length ≤ n →
      substSim m (scan (matchWs k) v s) = substSim ((k, v) :: m) s := by
  intro n
  induction n with
  | zero =>
    intro s hlen
    have hs : s = [] := List.length_eq_zero.mp (Nat.le_zero.mp hlen)
    subst hs
    rfl
  | succ n ih =>
    intro s hlen
    cases s with
    | nil => rfl
    | cons c rest =>
      simp only [List.length_cons] at hlen
      cases hMk : matchWs k (c :: rest) with
      | some r =>
        have hshr := matchWs_shrink hMk
        simp only [List.length_cons] at hshr
        have hrle : r.length ≤ rest.length := by omega
        rw [scan_cons_match hMk hrle]
        have hcopy : substSim m (v ++ scan (matchWs k) v r)
            = v ++ substSim m (scan (matchWs k) v r) := by
          refine substSim_copy ?_
          intro x1 x2 hx hx2
          rw [lookupMatch_none_iff]
          intro kv _
          obtain ⟨h0, x2', rfl⟩ := List.exists_cons_of_ne_nil hx2
          refine matchWs_none_of_head ?_
          have : h0 ∈ v := by
            rw [hx]
            exact List.mem_append_right x1 (List.mem_cons_self h0 x2')
          exact (hv.2 h0 this).2.1
        rw [hcopy, ih r (by omega)]
        have hlk : lookupMatch ((k, v) :: m) (c :: rest) = some (v, r) := by
          rw [lookupMatch_cons, hMk]
        rw [substSim_cons_match hlk hrle]
      | none =>
        cases hLm : lookupMatch m (c :: rest) with
        | some vr =>
          obtain ⟨v', r'⟩ := vr
          obtain ⟨kv, hkvmem, hkv2, hkvM⟩ := lookupMatch_some hLm
          obtain ⟨w1, w2, hw1, hw2, hdec⟩ := matchWs_decomp hkvM
          have hshr := matchWs_shrink hkvM
          simp only [List.length_cons] at hshr
          have hr'le : r'.length ≤ rest.length := by omega
          -- the k-pass copies the whole matched span
          have hscan : scan (matchWs k) v (c :: rest)
              = wsSpan kv.1 w1 w2 ++ scan (matchWs k) v r' := by
            rw [hdec]
            refine scan_copy ?_
            intro x1 x2 hx hx2
            cases hx1 : x1 with
            | nil =>
              rw [hx1] at hx
              simp only [List.nil_append] at hx
              rw [← hx, ← hdec]
              exact hMk
            | cons a0 a' =>
              exact span_suffix_no_match (hmk kv hkvmem) hw1 hw2 hx hx2
                (by rw [hx1]; simp) k r'
          rw [hscan]
          -- the simultaneous pass for m fires kv at the head of the span
          have hfull : matchWs kv.1 (wsSpan kv.1 w1 w2 ++ scan (matchWs k) v r')
              = some (scan (matchWs k) v r') :=
            matchWs_full (hmk kv hkvmem) hw1 hw2 _
          have hothers : ∀ kv2 ∈ m, kv2.1 ≠ kv.1 →
              matchWs kv2.1 (wsSpan kv.1 w1 w2 ++ scan (matchWs k) v r') = none := by
            intro kv2 hkv2mem hkv2ne
            cases hM2 : matchWs kv2.1 (wsSpan kv.1 w1 w2 ++ scan (matchWs k) v r') with
            | none => rfl
            | some r2 =>
              exact absurd (matchWs_unique (hmk kv2 hkv2mem) (hmk kv hkvmem) hM2 hfull).1
                hkv2ne
          have hLM2 : lookupMatch m (wsSpan kv.1 w1 w2 ++ scan (matchWs k) v r')
              = some (kv.2, scan (matchWs k) v r') :=
            lookupMatch_eq_of_mem hkvmem hfull hothers hdis
          rw [wsSpan_append_cons] at hLM2 ⊢
          have hlen2 : (scan (matchWs k) v r').length ≤
              (('{' :: (w1 ++ kv.1 ++ w2 ++ ['}', '}'])) ++ scan (matchWs k) v r').length := by
            simp only [List.length_append, List.length_cons]
            omega
          rw [substSim_cons_match hLM2 hlen2]
          rw [hkv2, ih r' (by omega)]
          have hlk : lookupMatch ((k, v) :: m) (c :: rest) = some (v', r') := by
            rw [lookupMatch_cons, hMk, hLm]
          rw [substSim_cons_match hlk hr'le]
        | none =>
          rw [scan_cons_nomatch hMk]
          have hno2 : lookupMatch m (c :: scan (matchWs k) v rest) = none := by
            rw [lookupMatch_none_iff]
            intro kv hkvmem
            cases hM2 : matchWs kv.1 (c :: scan (matchWs k) v rest) with
            | none => rfl
            | some r2 =>
              exfalso
              obtain ⟨w1, w2, hw1, hw2, hdec⟩ := matchWs_decomp hM2
              have hpre : ∃ z, scan (matchWs k) v (c :: rest)
                  = wsSpan kv.1 w1 w2 ++ z := by
                refine ⟨r2, ?_⟩
                rw [scan_cons_nomatch hMk]
                exact hdec
              have hsh : wsSpan kv.1 w1 w2
                  = ('{' :: '{' :: (w1 ++ kv.1 ++ w2 ++ ['}'])) ++ ['}'] := by
                rw [wsSpan]; simp
              obtain ⟨z, hz⟩ := prefix_transfer hv.1
                (fun c hc => ⟨(hv.2 c hc).2.1, (hv.2 c hc).2.2⟩)
                (c :: rest).length (Nat.le_refl _) hsh
                (not_subOf_wsSpan hv (hvnosub kv hkvmem) hw1 hw2) hpre
              have hws : matchWs kv.1 (c :: rest) = some z := by
                rw [hz]
                exact matchWs_full (hmk kv hkvmem) hw1 hw2 z
              have := (lookupMatch_none_iff).mp hLm kv hkvmem
              rw [hws] at this
              exact absurd this (by simp)
          rw [substSim_cons_nomatch hno2, ih rest (by omega)]
          have hlk : lookupMatch ((k, v) :: m) (c :: rest) = none := by
            rw [lookupMatch_cons, hMk, hLm]
          rw [substSim_cons_nomatch hlk]

instance {v s : List Char} : Decidable (SubOf v s) :=
  decidable_of_iff _ subOf_iff_containsSub.symm

/-- Hypotheses under which per-key sequential substitution coincides with
one-pass simultaneous substitution: identifier keys, pairwise-distinct keys,
and values that are nonempty, brace-free, whitespace-free, dollar-free (so
the string-argument replace inserts them verbatim) and not occurring inside
any key of the map. -/
def goodMap (m : List (List Char × List Char)) : Prop :=
  m.Pairwise (fun p q => p.1 ≠ q.1) ∧
  ∀ kv ∈ m, validKey kv.1 ∧ validVal kv.2 ∧ (∀ c ∈ kv.2, c ≠ '$') ∧
    ∀ kv' ∈ m, ¬ SubOf kv.2 kv'.1

instance : DecidablePred goodMap := fun m => by
  unfold goodMap; infer_instance

theorem lookupMatch_nil {s : List Char} : lookupMatch [] s = none := rfl

theorem substSim_empty : ∀ s : List Char, substSim [] s = s := by
  intro s
  induction s with
  | nil => rfl
  | cons c rest ih =>
    rw [substSim_cons_nomatch lookupMatch_nil, ih]

theorem goodMap_cons {kv : List Char × List Char}
    {m : List (List Char × List Char)} (hg : goodMap (kv :: m)) : goodMap m := by
  obtain ⟨hdis, hall⟩ := hg
  refine ⟨(List.pairwise_cons.mp hdis).2, ?_⟩
  intro kv2 h2
  obtain ⟨h1, h2', hd, h3⟩ := hall kv2 (List.mem_cons_of_mem kv h2)
  exact ⟨h1, h2', hd, fun kv' h' => h3 kv' (List.mem_cons_of_mem kv h')⟩

/-- For a good map, the sequential per-key engine of the source (Excel path:
whitespace-tolerant pass then exact pass per key, folded over the map) equals
the one-pass simultaneous substitution. -/
theorem substitute_excel_eq_sim {m : List (List Char × List Char)}
    (hg : goodMap m) : ∀ s, substitutePlaceholders false m s = substSim m s := by
  induction m with
  | nil => intro s; exact (substSim_empty s).symm
  | cons kv m ih =>
    intro s
    obtain ⟨k, v⟩ := kv
    obtain ⟨hkk, hvv, hdol, hnosub⟩ := hg.2 (k, v) (List.mem_cons_self _ m)
    have h1 : substitutePlaceholders false ((k, v) :: m) s
        = substitutePlaceholders false m (substKeyCode false k v s) := rfl
    have h2 : substKeyCode false k v s = scan (matchWs k) v s := by
      unfold substKeyCode
      simp only [if_neg (Bool.false_ne_true), replStr_eq_scan hdol]
      exact exact_pass_noop hkk hvv
        (hnosub (k, v) (List.mem_cons_self _ m)) s.length s (Nat.le_refl _)
    rw [h1, h2, ih (goodMap_cons hg)]
    exact substSim_compose hkk hvv
      (fun kv2 hm => (hg.2 kv2 (List.mem_cons_of_mem _ hm)).1)
      (fun kv2 hm => by
        intro heq
        have hdis := hg.1
        have := (List.pairwise_cons.mp hdis).1 kv2 hm
        exact this heq.symm)
      (fun kv2 hm => hnosub kv2 (List.mem_cons_of_mem _ hm))
      (List.pairwise_cons.mp hg.1).2
      s.length s (Nat.le_refl _)

theorem lookupMatch_perm {m m' : List (List Char × List Char)}
    (hmk : ∀ kv ∈ m, validKey kv.1)
    (hdis' : m'.Pairwise (fun p q => p.1 ≠ q.1)) (hperm : m.Perm m')
    (u : List Char) : lookupMatch m u = lookupMatch m' u := by
  cases hL : lookupMatch m u with
  | none =>
    have hall := (lookupMatch_none_iff).mp hL
    symm
    rw [lookupMatch_none_iff]
    intro kv h2
    exact hall kv (hperm.mem_iff.mpr h2)
  | some vr =>
    obtain ⟨v, r⟩ := vr
    obtain ⟨kv, hmem, hv2, hM⟩ := lookupMatch_some hL
    have hothers : ∀ kv2 ∈ m', kv2.1 ≠ kv.1 → matchWs kv2.1 u = none := by
      intro kv2 h2 hne
      cases hM2 : matchWs kv2.1 u with
      | none => rfl
      | some r2 =>
        exact absurd (matchWs_unique (hmk kv2 (hperm.mem_iff.mpr h2))
          (hmk kv hmem) hM2 hM).1 hne
    rw [lookupMatch_eq_of_mem (hperm.mem_iff.mp hmem) hM hothers hdis', hv2]

theorem substSim_perm {m m' : List (List Char × List Char)}
    (hmk : ∀ kv ∈ m, validKey kv.1)
    (hdis' : m'.Pairwise (fun p q => p.1 ≠ q.1)) (hperm : m.Perm m') :
    ∀ (n : Nat) (s : List Char), s.length ≤ n → substSim m s = substSim m' s := by
  intro n
  induction n with
  | zero =>
    intro s hlen
    have hs : s = [] := List.length_eq_zero.mp (Nat.le_zero.mp hlen)
    subst hs
    rfl
  | succ n ih =>
    intro s hlen
    cases s with
    | nil => rfl
    | cons c rest =>
      simp only [List.length_cons] at hlen
      have hpe := lookupMatch_perm hmk hdis' hperm (c :: rest)
      cases hL : lookupMatch m (c :: rest) with
      | some vr =>
        obtain ⟨v, r⟩ := vr
        have hL' : lookupMatch m' (c :: rest) = some (v, r) := by
          rw [← hpe, hL]
        obtain ⟨kv, _, _, hM⟩ := lookupMatch_some hL
        have hshr := matchWs_shrink hM
        simp only [List.length_cons] at hshr
        have hrle : r.length ≤ rest.length := by omega
        rw [substSim_cons_match hL hrle, substSim_cons_match hL' hrle,
          ih r (by omega)]
      | none =>
        have hL' : lookupMatch m' (c :: rest) = none := by
          rw [← hpe, hL]
        rw [substSim_cons_nomatch hL, substSim_cons_nomatch hL',
          ih rest (by omega)]

/-- Claim C1, counterexample. The claim "the output of the substitution engine
does not depend on the order in which the parameter names of the value map
are processed, and a value inserted as a replacement for one name is never
itself re-scanned and further substituted for any other name in the same run"
is false on the code: with body `{{a}}` and the value map
`a ↦ {{b}}, b ↦ x` (Excel path, no split heuristic), processing `a` before
`b` yields `x` (the inserted value `{{b}}` was re-scanned and substituted for
`b`), while the reverse order yields `{{b}}`. -/
theorem claim_C1_counterexample :
    (([(['a'], ['{', '{', 'b', '}', '}']), (['b'], ['x'])] :
        List (List Char × List Char)).Perm
      [(['b'], ['x']), (['a'], ['{', '{', 'b', '}', '}'])]) ∧
    substitutePlaceholders false
        [(['a'], ['{', '{', 'b', '}', '}']), (['b'], ['x'])]
        ['{', '{', 'a', '}', '}'] = ['x'] ∧
    substitutePlaceholders false
        [(['b'], ['x']), (['a'], ['{', '{', 'b', '}', '}'])]
        ['{', '{', 'a', '}', '}'] = ['{', '{', 'b', '}', '}'] ∧
    substitutePlaceholders false
        [(['a'], ['{', '{', 'b', '}', '}']), (['b'], ['x'])]
        ['{', '{', 'a', '}', '}'] ≠
      substitutePlaceholders false
        [(['b'], ['x']), (['a'], ['{', '{', 'b', '}', '}'])]
        ['{', '{', 'a', '}', '}'] := by
  refine ⟨?_, ?_, ?_, ?_⟩ <;> decide

/-- Claim C1, amended. For the Excel-family substitution path, when every
parameter name is a nonempty `[A-Za-z0-9_]+` identifier, names are pairwise
distinct, and every value is nonempty, contains no brace, no whitespace
character and no dollar sign (so the string-argument replace inserts it
verbatim), and does not occur as a substring of any parameter name, the
substitution output does not depend on the order in which the map entries are
processed, and it equals a single-pass simultaneous substitution in which an
inserted value is never re-scanned for any name. -/
theorem claim_C1_amended {m m' : List (List Char × List Char)} {s : List Char}
    (hg : goodMap m) (hperm : m.Perm m') :
    substitutePlaceholders false m s = substitutePlaceholders false m' s ∧
    substitutePlaceholders false m s = substSim m s := by
  have hdis' : m'.Pairwise (fun p q => p.1 ≠ q.1) :=
    (List.Perm.pairwise_iff (fun h => h.symm) hperm).mp hg.1
  have hg' : goodMap m' := by
    refine ⟨hdis', ?_⟩
    intro kv h2
    obtain ⟨h1, hvv, hd, h3⟩ := hg.2 kv (hperm.mem_iff.mpr h2)
    exact ⟨h1, hvv, hd, fun kv' h' => h3 kv' (hperm.mem_iff.mpr h')⟩
  have e1 := substitute_excel_eq_sim hg s
  have e2 := substitute_excel_eq_sim hg' s
  have e3 := substSim_perm (fun kv hm => (hg.2 kv hm).1) hdis' hperm
    s.length s (Nat.le_refl _)
  exact ⟨by rw [e1, e3, e2], e1⟩

/-- Witness for `claim_C1_amended` at a concrete input. -/
theorem claim_C1_witness :
    goodMap [(['a'], ['X']), (['b'], ['Y'])] ∧
    (([(['a'], ['X']), (['b'], ['Y'])] :
        List (List Char × List Char)).Perm [(['b'], ['Y']), (['a'], ['X'])]) ∧
    (substitutePlaceholders false [(['a'], ['X']), (['b'], ['Y'])]
        ['{', '{', 'a', '}', '}', ' ', '{', '{', 'b', '}', '}'] =
      substitutePlaceholders false [(['b'], ['Y']), (['a'], ['X'])]
        ['{', '{', 'a', '}', '}', ' ', '{', '{', 'b', '}', '}'] ∧
    substitutePlaceholders false [(['a'], ['X']), (['b'], ['Y'])]
        ['{', '{', 'a', '}', '}', ' ', '{', '{', 'b', '}', '}'] =
      substSim [(['a'], ['X']), (['b'], ['Y'])]
        ['{', '{', 'a', '}', '}', ' ', '{', '{', 'b', '}', '}']) :=
  ⟨by decide, by decide, claim_C1_amended (by decide) (by decide)⟩

/-- The whitespace-tolerant pass treats `{{w1 k w2}}` exactly like `{{k}}`
in any context: interior whitespace in a placeholder does not change the
pass's output. -/
theorem scan_ws_placeholder {k v w1 w2 : List Char} (hk : validKey k)
    (h1 : ∀ c ∈ w1, isWsChar c = true) (h2 : ∀ c ∈ w2, isWsChar c = true) :
    ∀ (n : Nat) (x : List Char), x.length ≤ n → ∀ y,
      scan (matchWs k) v (x ++ (wsSpan k w1 w2 ++ y))
        = scan (matchWs k) v (x ++ (wsSpan k [] [] ++ y)) := by
  intro n
  induction n with
  | zero =>
    intro x hlen y
    have hx : x = [] := List.length_eq_zero.mp (Nat.le_zero.mp hlen)
    subst hx
    simp only [List.nil_append]
    rw [wsSpan_append_cons, wsSpan_append_cons]
    have hMA : matchWs k ('{' :: (('{' :: (w1 ++ k ++ w2 ++ ['}', '}'])) ++ y))
        = some y := by
      rw [← wsSpan_append_cons]
      exact matchWs_full hk h1 h2 y
    have hMB : matchWs k ('{' :: (('{' :: ([] ++ k ++ [] ++ ['}', '}'])) ++ y))
        = some y := by
      rw [← wsSpan_append_cons]
      exact matchWs_full hk (by simp) (by simp) y
    rw [scan_cons_match hMA (by simp only [List.length_append, List.length_cons]; omega),
      scan_cons_match hMB (by simp only [List.length_append, List.length_cons]; omega)]
  | succ n ih =>
    intro x hlen y
    cases hx : x with
    | nil =>
      exact ih [] (by simp) y
    | cons x0 x' =>
      subst hx
      simp only [List.length_cons] at hlen
      cases hM : matchWs k (x0 :: x' ++ (wsSpan k w1 w2 ++ y)) with
      | some r =>
        have hshape : matchWs k ((x0 :: x') ++
            ('{' :: '{' :: ((w1 ++ k ++ w2 ++ ['}', '}']) ++ y))) = some r := hM
        have hstr := matchWs_not_straddle hk (by simp) hshape
        obtain ⟨wA, wB, x'', hwA, hwB, hxe, hre⟩ := hstr
        have hshr := matchWs_shrink hM
        have hrle : r.length ≤ (x' ++ (wsSpan k w1 w2 ++ y)).length := by
          simp only [List.length_cons, List.length_append] at hshr ⊢
          omega
        have hM' : matchWs k (x0 :: (x' ++ (wsSpan k w1 w2 ++ y))) = some r := hM
        rw [List.cons_append, scan_cons_match hM' hrle]
        -- identify r
        have hrA : r = x'' ++ (wsSpan k w1 w2 ++ y) := hre
        -- side B also matches, with the analogous remainder
        have hMB : matchWs k ((x0 :: x') ++ (wsSpan k [] [] ++ y))
            = some (x'' ++ (wsSpan k [] [] ++ y)) := by
          have hxB : (x0 :: x') ++ (wsSpan k [] [] ++ y)
              = wsSpan k wA wB ++ (x'' ++ (wsSpan k [] [] ++ y)) := by
            rw [hxe]
            simp [List.append_assoc]
          rw [hxB]
          exact matchWs_full hk hwA hwB _
        have hMB' : matchWs k (x0 :: (x' ++ (wsSpan k [] [] ++ y)))
            = some (x'' ++ (wsSpan k [] [] ++ y)) := by
          rw [← hMB]
          rfl
        have hshrB := matchWs_shrink hMB'
        have hrleB : (x'' ++ (wsSpan k [] [] ++ y)).length
            ≤ (x' ++ (wsSpan k [] [] ++ y)).length := by
          simp only [List.length_cons, List.length_append] at hshrB ⊢
          omega
        rw [List.cons_append, scan_cons_match hMB' hrleB]
        -- recurse on x''
        have hx''len : x''.length ≤ n := by
          have hlx := congrArg List.length hxe
          simp only [List.length_cons, List.length_append, wsSpan_length] at hlx
          omega
        rw [hrA, ih x'' hx''len y]
      | none =>
        have hMB : matchWs k ((x0 :: x') ++ (wsSpan k [] [] ++ y)) = none := by
          cases hM2 : matchWs k ((x0 :: x') ++ (wsSpan k [] [] ++ y)) with
          | none => rfl
          | some r2 =>
            exfalso
            have hshape2 : matchWs k ((x0 :: x') ++
                ('{' :: '{' :: (([] ++ k ++ [] ++ ['}', '}']) ++ y))) = some r2 := hM2
            have hstr := matchWs_not_straddle hk (by simp) hshape2
            obtain ⟨wA, wB, x'', hwA, hwB, hxe, _⟩ := hstr
            have hMA : matchWs k ((x0 :: x') ++ (wsSpan k w1 w2 ++ y))
                = some (x'' ++ (wsSpan k w1 w2 ++ y)) := by
              have hxA : (x0 :: x') ++ (wsSpan k w1 w2 ++ y)
                  = wsSpan k wA wB ++ (x'' ++ (wsSpan k w1 w2 ++ y)) := by
                rw [hxe]
                simp [List.append_assoc]
              rw [hxA]
              exact matchWs_full hk hwA hwB _
            rw [hMA] at hM
            exact absurd hM (by simp)
        have hM' : matchWs k (x0 :: (x' ++ (wsSpan k w1 w2 ++ y))) = none := hM
        rw [List.cons_append, scan_cons_nomatch hM']
        have hMB' : matchWs k (x0 :: (x' ++ (wsSpan k [] [] ++ y))) = none := hMB
        rw [List.cons_append, scan_cons_nomatch hMB']
        rw [ih x' (by omega) y]

/-- Claim C6, counterexample. The claim "for every parameter name and value,
the bodies `x{{ name }}y`, `x{{name}}y` (identical otherwise) substitute
identically" is false on the code: with the value `$&` (a replacement pattern
of the string-argument `String.replace`, expanding to the matched text), the
Excel path maps `x{{ name }}y` to itself and `x{{name}}y` to itself — the two
outputs differ, because each spelling is replaced by its own matched text
rather than by a common value. -/
theorem claim_C6_counterexample :
    substitutePlaceholders false [(['n', 'a', 'm', 'e'], ['$', '&'])]
        (['x'] ++ (wsSpan ['n', 'a', 'm', 'e'] [' '] [' '] ++ ['y']))
      = ['x'] ++ (wsSpan ['n', 'a', 'm', 'e'] [' '] [' '] ++ ['y']) ∧
    substitutePlaceholders false [(['n', 'a', 'm', 'e'], ['$', '&'])]
        (['x'] ++ (wsSpan ['n', 'a', 'm', 'e'] [] [] ++ ['y']))
      = ['x'] ++ (wsSpan ['n', 'a', 'm', 'e'] [] [] ++ ['y']) ∧
    substitutePlaceholders false [(['n', 'a', 'm', 'e'], ['$', '&'])]
        (['x'] ++ (wsSpan ['n', 'a', 'm', 'e'] [' '] [' '] ++ ['y'])) ≠
      substitutePlaceholders false [(['n', 'a', 'm', 'e'], ['$', '&'])]
        (['x'] ++ (wsSpan ['n', 'a', 'm', 'e'] [] [] ++ ['y'])) := by
  refine ⟨?_, ?_, ?_⟩ <;> decide

/-- Claim C6, amended. For a value containing no dollar sign (so the
string-argument replace inserts it verbatim), substituting a parameter into a
body whose placeholder carries any interior whitespace (`{{ name }}`,
`{{name}}`, `{{  name }}`, ...) yields the same result as the
whitespace-free spelling, for both Word-family and Excel-family documents:
the bodies `x ++ "{{" ++ w1 ++ name ++ w2 ++ "}}" ++ y` (whitespace runs
`w1`, `w2`) and `x ++ "{{" ++ name ++ "}}" ++ y` substitute identically. -/
theorem claim_C6_amended {word : Bool} {k v x y w1 w2 : List Char}
    (hk : validKey k) (hd : ∀ c ∈ v, c ≠ '$')
    (h1 : ∀ c ∈ w1, isWsChar c = true) (h2 : ∀ c ∈ w2, isWsChar c = true) :
    substitutePlaceholders word [(k, v)] (x ++ (wsSpan k w1 w2 ++ y))
      = substitutePlaceholders word [(k, v)] (x ++ (wsSpan k [] [] ++ y)) := by
  have hcore := scan_ws_placeholder (v := v) hk h1 h2 x.length x (Nat.le_refl _) y
  show substKeyCode word k v (x ++ (wsSpan k w1 w2 ++ y))
      = substKeyCode word k v (x ++ (wsSpan k [] [] ++ y))
  unfold substKeyCode
  simp only [replStr_eq_scan hd]
  rw [hcore]

/-- Witness for `claim_C6_amended`: `Dear {{ name }}!` and
`Dear {{name}}!` with `name ↦ Ada` both yield `Dear Ada!`; the `{{  name }}`
spelling agrees as well. -/
theorem claim_C6_witness :
    validKey ['n', 'a', 'm', 'e'] ∧
    (∀ c ∈ ['A', 'd', 'a'], c ≠ '$') ∧
    substitutePlaceholders false [(['n', 'a', 'm', 'e'], ['A', 'd', 'a'])]
        (['D', 'e', 'a', 'r', ' '] ++ (wsSpan ['n', 'a', 'm', 'e'] [' '] [' '] ++ ['!']))
      = substitutePlaceholders false [(['n', 'a', 'm', 'e'], ['A', 'd', 'a'])]
        (['D', 'e', 'a', 'r', ' '] ++ (wsSpan ['n', 'a', 'm', 'e'] [] [] ++ ['!'])) ∧
    substitutePlaceholders true [(['n', 'a', 'm', 'e'], ['A', 'd', 'a'])]
        (['D', 'e', 'a', 'r', ' '] ++ (wsSpan ['n', 'a', 'm', 'e'] [' ', ' '] [' '] ++ ['!']))
      = substitutePlaceholders true [(['n', 'a', 'm', 'e'], ['A', 'd', 'a'])]
        (['D', 'e', 'a', 'r', ' '] ++ (wsSpan ['n', 'a', 'm', 'e'] [] [] ++ ['!'])) ∧
    substitutePlaceholders false [(['n', 'a', 'm', 'e'], ['A', 'd', 'a'])]
        (['D', 'e', 'a', 'r', ' '] ++ (wsSpan ['n', 'a', 'm', 'e'] [] [] ++ ['!']))
      = ['D', 'e', 'a', 'r', ' ', 'A', 'd', 'a', '!'] :=
  ⟨by decide, by decide,
   claim_C6_amended (by decide) (by decide) (by decide) (by decide),
   claim_C6_amended (by decide) (by decide) (by decide) (by decide),
   by decide⟩

/-- The literal placeholder occurrence `{{n}}` for a name `n`. -/
def occPat (n : List Char) : List Char := '{' :: '{' :: (n ++ ['}', '}'])

/-- Generic preservation: if a matcher `M` never fires at or strictly inside
an occurrence `occ`, and any match starting before `occ` ends before `occ`,
then a scan pass maps `x ++ occ ++ y` to `x' ++ occ ++ (scan of y)`. -/
theorem scan_preserves {M : List Char → Option (List Char)} {v occ : List Char}
    (hocc1 : ∀ t, M (occ ++ t) = none)
    (hocc2 : ∀ x1 x2, occ = x1 ++ x2 → x2 ≠ [] → x1 ≠ [] → ∀ t, M (x2 ++ t) = none)
    (hspan : ∀ x t r, x ≠ [] → M (x ++ (occ ++ t)) = some r →
      ∃ x1 x2, x = x1 ++ x2 ∧ r = x2 ++ (occ ++ t) ∧ x1 ≠ [])
    (hshrink : ∀ u r, M u = some r → r.length < u.length) :
    ∀ (n : Nat) (x : List Char), x.length ≤ n → ∀ y,
      ∃ x', scan M v (x ++ (occ ++ y)) = x' ++ (occ ++ scan M v y) := by
  intro n
  induction n with
  | zero =>
    intro x hlen y
    have hx : x = [] := List.length_eq_zero.mp (Nat.le_zero.mp hlen)
    subst hx
    refine ⟨[], ?_⟩
    simp only [List.nil_append]
    refine scan_copy ?_
    intro x1 x2 hsplit hx2
    cases hx1 : x1 with
    | nil =>
      rw [hx1] at hsplit
      simp only [List.nil_append] at hsplit
      rw [← hsplit]
      exact hocc1 y
    | cons a0 a' =>
      exact hocc2 x1 x2 hsplit hx2 (by rw [hx1]; simp) y
  | succ n ih =>
    intro x hlen y
    cases hx : x with
    | nil => exact ih [] (by simp) y
    | cons x0 x'' =>
      subst hx
      simp only [List.length_cons] at hlen
      cases hM : M ((x0 :: x'') ++ (occ ++ y)) with
      | some r =>
        obtain ⟨x1, x2, hxe, hre, hx1ne⟩ := hspan (x0 :: x'') y r (by simp) hM
        have hM' : M (x0 :: (x'' ++ (occ ++ y))) = some r := hM
        have hsh := hshrink _ _ hM'
        have hrle : r.length ≤ (x'' ++ (occ ++ y)).length := by
          simp only [List.length_cons] at hsh
          omega
        rw [List.cons_append, scan_cons_match hM' hrle]
        have hx2len : x2.length ≤ n := by
          have hlx := congrArg List.length hxe
          obtain ⟨e0, e', he⟩ := List.exists_cons_of_ne_nil hx1ne
          rw [he] at hlx
          simp only [List.length_cons, List.length_append] at hlx
          omega
        obtain ⟨x2', hx2'⟩ := ih x2 hx2len y
        rw [hre, hx2']
        exact ⟨v ++ x2', by rw [List.append_assoc]⟩
      | none =>
        have hM' : M (x0 :: (x'' ++ (occ ++ y))) = none := hM
        rw [List.cons_append, scan_cons_nomatch hM']
        obtain ⟨x', hx'⟩ := ih x'' (by omega) y
        rw [hx']
        exact ⟨x0 :: x', rfl⟩

theorem occPat_eq_wsSpan {n : List Char} : occPat n = wsSpan n [] [] := by
  rw [occPat, wsSpan]; simp

theorem occ_hocc1_ws {k n : List Char} (hk : validKey k) (hn : validKey n)
    (hne : k ≠ n) (t : List Char) : matchWs k (occPat n ++ t) = none := by
  have hsh : occPat n ++ t = '{' :: '{' :: (n ++ ('}' :: '}' :: t)) := by
    rw [occPat]; simp [List.append_assoc]
  rw [hsh]
  exact matchWs_at_other_key hk hn hne t

theorem occ_hocc2_ws {k n : List Char} (hn : validKey n) :
    ∀ x1 x2, occPat n = x1 ++ x2 → x2 ≠ [] → x1 ≠ [] → ∀ t,
      matchWs k (x2 ++ t) = none := by
  intro x1 x2 hsplit hx2 hx1 t
  rw [occPat_eq_wsSpan] at hsplit
  exact span_suffix_no_match hn (by simp) (by simp) hsplit hx2 hx1 k t

theorem occ_hspan_ws {k n : List Char} (hk : validKey k) :
    ∀ x t r, x ≠ [] → matchWs k (x ++ (occPat n ++ t)) = some r →
      ∃ x1 x2, x = x1 ++ x2 ∧ r = x2 ++ (occPat n ++ t) ∧ x1 ≠ [] := by
  intro x t r hx hM
  have hM' : matchWs k (x ++ ('{' :: '{' :: ((n ++ ['}', '}']) ++ t))) = some r := hM
  obtain ⟨w1, w2, x', hw1, hw2, hxe, hre⟩ := matchWs_not_straddle hk hx hM'
  refine ⟨wsSpan k w1 w2, x', hxe, hre, ?_⟩
  rw [wsSpan]
  simp

theorem occ_hocc1_exact {k n : List Char} (hk : validKey k) (hn : validKey n)
    (hne : k ≠ n) (t : List Char) : matchExact k (occPat n ++ t) = none := by
  cases hE : matchExact k (occPat n ++ t) with
  | none => rfl
  | some r =>
    have := matchExact_imp_ws hk hE
    rw [occ_hocc1_ws hk hn hne t] at this
    exact absurd this (by simp)

theorem occ_hocc2_exact {k n : List Char} (hk : validKey k) (hn : validKey n) :
    ∀ x1 x2, occPat n = x1 ++ x2 → x2 ≠ [] → x1 ≠ [] → ∀ t,
      matchExact k (x2 ++ t) = none := by
  intro x1 x2 hsplit hx2 hx1 t
  cases hE : matchExact k (x2 ++ t) with
  | none => rfl
  | some r =>
    have := matchExact_imp_ws hk hE
    rw [occ_hocc2_ws hn x1 x2 hsplit hx2 hx1 t] at this
    exact absurd this (by simp)

theorem occ_hspan_exact {k n : List Char} (hk : validKey k) :
    ∀ x t r, x ≠ [] → matchExact k (x ++ (occPat n ++ t)) = some r →
      ∃ x1 x2, x = x1 ++ x2 ∧ r = x2 ++ (occPat n ++ t) ∧ x1 ≠ [] :=
  fun x t r hx hE => occ_hspan_ws hk x t r hx (matchExact_imp_ws hk hE)

/-- One Excel-family per-key substitution step leaves an untouched
placeholder `{{n}}` (for a different name `n`) intact and processes the rest
of the body as usual. -/
theorem substKey_excel_preserves {k v n x y : List Char} (hk : validKey k)
    (hn : validKey n) (hne : k ≠ n) (hd : ∀ c ∈ v, c ≠ '$') :
    ∃ x', substKeyCode false k v (x ++ (occPat n ++ y))
        = x' ++ (occPat n ++ substKeyCode false k v y) := by
  obtain ⟨x1, h1⟩ := scan_preserves (occ_hocc1_ws hk hn hne)
    (occ_hocc2_ws hn) (occ_hspan_ws hk)
    (fun u r h => by have := matchWs_shrink h; omega)
    x.length x (Nat.le_refl _) y
  obtain ⟨x2, h2⟩ := scan_preserves (occ_hocc1_exact hk hn hne)
    (occ_hocc2_exact hk hn) (occ_hspan_exact hk)
    (fun u r h => by have := matchExact_shrink h; omega)
    x1.length x1 (Nat.le_refl _) (scan (matchWs k) v y)
  refine ⟨x2, ?_⟩
  unfold substKeyCode
  simp only [if_neg (Bool.false_ne_true), replStr_eq_scan hd]
  rw [h1, h2]

/-- Claim C2, amended. For Excel-family document bodies, a placeholder
occurrence `{{n}}` whose name `n` (a valid identifier) has no entry in the
value map survives substitution verbatim, the values containing no dollar
sign (so the string-argument replace inserts them verbatim): the output
decomposes around the same occurrence — including when some key of the map
is a substring of `n`. -/
theorem claim_C2_amended {m : List (List Char × List Char)} {n x y : List Char}
    (hn : validKey n)
    (hm : ∀ kv ∈ m, validKey kv.1 ∧ kv.1 ≠ n ∧ ∀ c ∈ kv.2, c ≠ '$') :
    ∃ x', substitutePlaceholders false m (x ++ (occPat n ++ y))
        = x' ++ (occPat n ++ substitutePlaceholders false m y) := by
  induction m generalizing x y with
  | nil => exact ⟨x, rfl⟩
  | cons kv m ih =>
    obtain ⟨k, v⟩ := kv
    obtain ⟨hk, hkne, hd⟩ := hm (k, v) (List.mem_cons_self _ m)
    obtain ⟨x1, h1⟩ := substKey_excel_preserves (x := x) (y := y) hk hn hkne hd
    obtain ⟨x2, h2⟩ := ih (fun kv2 hm2 => hm kv2 (List.mem_cons_of_mem _ hm2))
      (x := x1) (y := substKeyCode false k v y)
    refine ⟨x2, ?_⟩
    show substitutePlaceholders false m (substKeyCode false k v (x ++ (occPat n ++ y)))
        = x2 ++ (occPat n ++ substitutePlaceholders false m (substKeyCode false k v y))
    rw [h1, h2]

/-- Claim C2, counterexample. On a Word-family body the claim fails: with value
map `name ↦ X`, the untouched placeholder `{{fullname}}` (no entry for
`fullname`; `name` is a substring of it) does **not** appear unchanged — the
split-token heuristic replaces the whole span, producing `X`. -/
theorem claim_C2_counterexample :
    substitutePlaceholders true [(['n', 'a', 'm', 'e'], ['X'])]
        (occPat ['f', 'u', 'l', 'l', 'n', 'a', 'm', 'e']) = ['X'] ∧
    containsSub (occPat ['f', 'u', 'l', 'l', 'n', 'a', 'm', 'e'])
        (occPat ['f', 'u', 'l', 'l', 'n', 'a', 'm', 'e']) = true ∧
    containsSub (occPat ['f', 'u', 'l', 'l', 'n', 'a', 'm', 'e'])
        (substitutePlaceholders true [(['n', 'a', 'm', 'e'], ['X'])]
          (occPat ['f', 'u', 'l', 'l', 'n', 'a', 'm', 'e'])) = false := by
  refine ⟨?_, ?_, ?_⟩ <;> decide

/-- Witness for `claim_C2_amended`: with map `name ↦ X` over the Excel path,
the body `{{fullname}}!` keeps its `{{fullname}}` placeholder. -/
theorem claim_C2_witness :
    validKey ['f', 'u', 'l', 'l', 'n', 'a', 'm', 'e'] ∧
    (∃ x', substitutePlaceholders false [(['n', 'a', 'm', 'e'], ['X'])]
        ([] ++ (occPat ['f', 'u', 'l', 'l', 'n', 'a', 'm', 'e'] ++ ['!']))
      = x' ++ (occPat ['f', 'u', 'l', 'l', 'n', 'a', 'm', 'e'] ++
          substitutePlaceholders false [(['n', 'a', 'm', 'e'], ['X'])] ['!'])) :=
  ⟨by decide, claim_C2_amended (by decide) (by decide)⟩

/-- Decoding of template bytes (`new TextDecoder('utf-8').decode(buffer)`),
modelled on its ASCII fragment: each byte below 128 decodes to the
corresponding character. -/
def asciiDecode (bytes : List Nat) : List Char := bytes.map Char.ofNat

/-- Re-encoding of the substituted text (`new TextEncoder().encode(...)`),
modelled on its ASCII fragment. -/
def asciiEncode (text : List Char) : List Nat := text.map Char.toNat

/-- The decode → substitute → re-encode step of the pipeline
(index.ts 100-139). -/
def processContent (word : Bool) (m : List (List Char × List Char))
    (bytes : List Nat) : List Nat :=
  asciiEncode (substitutePlaceholders word m (asciiDecode bytes))

/-- Token test `hasToken k s`: some position of `s` carries a placeholder token for
key `k` under any of the three patterns of the source. -/
def hasToken (k s : List Char) : Bool :=
  s.tails.any (fun t =>
    (matchWs k t).isSome || (matchExact k t).isSome || (matchSplit k t).isSome)

/-- A pass whose matcher never fires on any suffix is the identity. -/
theorem scan_id {M : List Char → Option (List Char)} {v : List Char} :
    ∀ {s : List Char}, (∀ x1 x2, s = x1 ++ x2 → M x2 = none) →
      scan M v s = s := by
  intro s
  induction s with
  | nil => intro _; rfl
  | cons c rest ih =>
    intro hno
    have h0 : M (c :: rest) = none := hno [] (c :: rest) rfl
    rw [scan_cons_nomatch h0, ih]
    intro x1 x2 hx
    exact hno (c :: x1) x2 (by rw [hx]; rfl)

theorem hasToken_false_suffix {k s x1 x2 : List Char}
    (h : hasToken k s = false) (hx : s = x1 ++ x2) :
    matchWs k x2 = none ∧ matchExact k x2 = none ∧ matchSplit k x2 = none := by
  unfold hasToken at h
  rw [List.any_eq_false] at h
  have hmem : x2 ∈ s.tails := by
    rw [List.mem_tails]
    exact ⟨x1, hx.symm⟩
  have := h x2 hmem
  simp only [Bool.or_eq_true, Option.isSome_iff_exists, not_or, not_exists] at this
  obtain ⟨⟨h1, h2⟩, h3⟩ := this
  refine ⟨?_, ?_, ?_⟩
  · cases hM : matchWs k x2 with
    | none => rfl
    | some r => exact absurd hM (h1 r)
  · cases hM : matchExact k x2 with
    | none => rfl
    | some r => exact absurd hM (h2 r)
  · cases hM : matchSplit k x2 with
    | none => rfl
    | some r => exact absurd hM (h3 r)

/-- If the body has no token for `k`, the per-key substitution is the
identity (both document families). -/
theorem substKey_id {word : Bool} {k v s : List Char}
    (h : hasToken k s = false) : substKeyCode word k v s = s := by
  have hws : replStr (matchWs k) v s = s :=
    replStr_id (fun x1 x2 hx => (hasToken_false_suffix h hx).1)
  have hex : replStr (matchExact k) v s = s :=
    replStr_id (fun x1 x2 hx => (hasToken_false_suffix h hx).2.1)
  have hsp : scan (matchSplit k) v s = s :=
    scan_id (fun x1 x2 hx => (hasToken_false_suffix h hx).2.2)
  unfold substKeyCode
  cases word with
  | false => simp only [Bool.false_eq_true, if_false, hws, hex]
  | true => simp only [if_true, hws, hex, hsp]

theorem substitute_id {word : Bool} {m : List (List Char × List Char)}
    {s : List Char} (h : ∀ kv ∈ m, hasToken kv.1 s = false) :
    substitutePlaceholders word m s = s := by
  induction m with
  | nil => rfl
  | cons kv m ih =>
    have h1 : substitutePlaceholders word (kv :: m) s
        = substitutePlaceholders word m (substKeyCode word kv.1 kv.2 s) := rfl
    rw [h1, substKey_id (h kv (List.mem_cons_self kv m))]
    exact ih (fun kv2 hm => h kv2 (List.mem_cons_of_mem kv hm))

theorem char_ofNat_toNat {b : Nat} (h : b < 128) : (Char.ofNat b).toNat = b := by
  have hv : Nat.isValidChar b := Or.inl (by omega)
  unfold Char.ofNat
  rw [dif_pos hv]
  unfold Char.ofNatAux Char.toNat
  simp [UInt32.toNat]

/-- Claim C7, confirmed. For ASCII byte content carrying no placeholder token
for any key of the (non-empty) value map, the decode → substitute →
re-encode step of the pipeline returns the input bytes unchanged, for either
document family. -/
theorem claim_C7_roundtrip {word : Bool} {m : List (List Char × List Char)}
    {bytes : List Nat} (hascii : ∀ b ∈ bytes, b < 128) (hne : m ≠ [])
    (htok : ∀ kv ∈ m, hasToken kv.1 (asciiDecode bytes) = false) :
    processContent word m bytes = bytes := by
  unfold processContent
  rw [substitute_id htok]
  unfold asciiEncode asciiDecode
  rw [List.map_map]
  have : ∀ b ∈ bytes, (Char.toNat ∘ Char.ofNat) b = b := by
    intro b hb
    exact char_ofNat_toNat (hascii b hb)
  calc bytes.map (Char.toNat ∘ Char.ofNat) = bytes.map (fun b => b) :=
        List.map_congr_left this
    _ = bytes := List.map_id bytes

/-- Witness for `claim_C7_roundtrip`: the bytes of `Hello` with map
`name ↦ X` round-trip unchanged. -/
theorem claim_C7_witness :
    (∀ b ∈ [72, 101, 108, 108, 111], b < 128) ∧
    ([(['n', 'a', 'm', 'e'], ['X'])] : List (List Char × List Char)) ≠ [] ∧
    (∀ kv ∈ ([(['n', 'a', 'm', 'e'], ['X'])] : List (List Char × List Char)),
      hasToken kv.1 (asciiDecode [72, 101, 108, 108, 111]) = false) ∧
    processContent false [(['n', 'a', 'm', 'e'], ['X'])]
        [72, 101, 108, 108, 111] = [72, 101, 108, 108, 111] :=
  ⟨by decide, by decide, by decide,
   claim_C7_roundtrip (by decide) (by decide) (by decide)⟩

/-- JavaScript `String.prototype.trim`. -/
def trimList (s : List Char) : List Char :=
  ((s.dropWhile isWsChar).reverse.dropWhile isWsChar).reverse

/-- Lookup in a JavaScript object used as a string map
(`formValues[param.parameter_name]`, `parameters[name]`). -/
def assocLookup (vals : List (List Char × List Char)) (nm : List Char) :
    Option (List Char) :=
  (vals.find? (fun kv => kv.1 == nm)).map (fun kv => kv.2)

/-- Modelled from the spec: the email grammar enforced by the external zod
`z.string().email()` validator used in `validateParameters` (library code,
not part of src/): "a standard email grammar (local@domain with at least one
dot in domain)" — exactly one `@`, nonempty local part, nonempty domain
containing a dot. -/
def emailValid (s : List Char) : Bool :=
  (s.count '@' == 1) &&
  (!(s.takeWhile (fun c => c ≠ '@')).isEmpty) &&
  (!((s.dropWhile (fun c => c ≠ '@')).drop 1).isEmpty) &&
  (((s.dropWhile (fun c => c ≠ '@')).drop 1).contains '.')

def isDigit (c : Char) : Bool := 48 ≤ c.toNat && c.toNat ≤ 57

def isHexDigit (c : Char) : Bool :=
  isDigit c || (97 ≤ c.toNat && c.toNat ≤ 102) || (65 ≤ c.toNat && c.toNat ≤ 70)

def isOctDigit (c : Char) : Bool := 48 ≤ c.toNat && c.toNat ≤ 55

def isBinDigit (c : Char) : Bool := c.toNat == 48 || c.toNat == 49

def allDigits (l : List Char) : Bool := l.all isDigit

/-- Exponent part of a JavaScript numeric string: optional sign then at
least one digit. -/
def expOk (l : List Char) : Bool :=
  match l with
  | '+' :: r => !r.isEmpty && allDigits r
  | '-' :: r => !r.isEmpty && allDigits r
  | r => !r.isEmpty && allDigits r

/-- Mantissa of a JavaScript decimal numeric string:
`digits [. digits]` or `. digits` (at least one digit overall). -/
def mantissaOk (m : List Char) : Bool :=
  match m.drop (m.takeWhile isDigit).length with
  | [] => !m.isEmpty
  | '.' :: fr => (!(m.takeWhile isDigit).isEmpty || !fr.isEmpty) && allDigits fr
  | _ => false

/-- A JavaScript unsigned decimal literal with optional exponent. -/
def decimalOk (l : List Char) : Bool :=
  match l.drop (l.takeWhile (fun c => c ≠ 'e' ∧ c ≠ 'E')).length with
  | [] => mantissaOk l
  | _ :: e => mantissaOk (l.takeWhile (fun c => c ≠ 'e' ∧ c ≠ 'E')) && expOk e

def signedPartOk (t : List Char) : Bool :=
  (t == ['I', 'n', 'f', 'i', 'n', 'i', 't', 'y']) || decimalOk t

/-- Literals `0x`, `0o`, `0b` (no sign allowed in JavaScript `Number`). -/
def nonDecimalOk (t : List Char) : Bool :=
  match t with
  | '0' :: c :: r =>
    if c = 'x' ∨ c = 'X' then !r.isEmpty && r.all isHexDigit
    else if c = 'o' ∨ c = 'O' then !r.isEmpty && r.all isOctDigit
    else if c = 'b' ∨ c = 'B' then !r.isEmpty && r.all isBinDigit
    else false
  | _ => false

/-- The check `isNaN(Number(value))` of the client validator's number branch. -/
def jsNumberIsNaN (s : List Char) : Bool :=
  if (trimList s).isEmpty then false
  else !(nonDecimalOk (trimList s) ||
    (match trimList s with
     | '+' :: r => signedPartOk r
     | '-' :: r => signedPartOk r
     | r => signedPartOk r))

/-- Parameter types selectable in the template upload form. -/
inductive PType | text | number | email | date | textarea
deriving DecidableEq

/-- A template parameter definition as the client sees it. -/
structure ParamDef where
  parameter_name : List Char
  parameter_label : List Char
  parameter_type : PType
  is_required : Bool
deriving DecidableEq

/-- Validation failures surfaced by `validateParameters` (each is toasted as
`label + " is required"`, `label + " must be a valid email"`,
`label + " must be a number"` respectively). -/
inductive VError
  | missingRequired (label : List Char)
  | invalidEmail (label : List Char)
  | invalidNumber (label : List Char)
deriving DecidableEq

/-- One iteration of the `validateParameters` loop body for a (required)
parameter. -/
def checkParam (vals : List (List Char × List Char)) (p : ParamDef) :
    Option VError :=
  match (assocLookup vals p.parameter_name).map trimList with
  | none => some (.missingRequired p.parameter_label)
  | some v =>
    if v.isEmpty then some (.missingRequired p.parameter_label)
    else if p.parameter_type = PType.email ∧ emailValid v = false then
      some (.invalidEmail p.parameter_label)
    else if p.parameter_type = PType.number ∧ jsNumberIsNaN v = true then
      some (.invalidNumber p.parameter_label)
    else none

/-- The client-side `validateParameters` (Dashboard, part_001 lines
103-131): iterate the required parameters in order and report the first
failing check. -/
def validateParameters (ps : List ParamDef)
    (vals : List (List Char × List Char)) : Option VError :=
  (ps.filter (fun p => p.is_required)).findSome? (checkParam vals)

/-- A template row (`document_templates`), as used by the edge function. -/
structure TemplateRec where
  file_type : List Char
  file_url : List Char
deriving DecidableEq

/-- A `template_parameters` row, as used by the edge function's
required-parameter check. -/
structure TParam where
  parameter_name : List Char
  parameter_label : List Char
  is_required : Bool
deriving DecidableEq

/-- Failure modes of the edge function (each maps to the thrown message of
index.ts and a 400 response). -/
inductive EdgeError
  | noAuthHeader | unauthorized | missingParams | templateNotFound
  | paramsFetchFailed | missingRequired (label : List Char) | insertFailed
  | downloadFailed | uploadFailed | signedUrlFailed
deriving DecidableEq

/-- The edge function's HTTP response: the success JSON
`{success, message, documentId, downloadUrl}` or the 400 error JSON. -/
inductive EdgeResponse
  | ok (documentId downloadUrl : List Char)
  | err (e : EdgeError)
deriving DecidableEq

/-- Object-store calls the edge function performs. -/
inductive StoreOp
  | download (path : List Char)
  | upload (path : List Char) (content : List Nat)
  | createSignedUrl (path : List Char)
deriving DecidableEq

/-- A `generated_documents` row: `resultRef` models `file_url`
(absent at insert time, set by the final update). -/
structure GenRecord where
  id : List Char
  parameters : List (List Char × List Char)
  resultRef : Option (List Char)
deriving DecidableEq

/-- The collaborator environment of one edge-function invocation: what each
external call would return. -/
structure EdgeEnv where
  hasAuthHeader : Bool
  user : Option (List Char)
  templateId : Option (List Char)
  parameters : Option (List (List Char × List Char))
  template : Option TemplateRec
  templateParams : Option (List TParam)
  insertOk : Bool
  insertedId : List Char
  downloadResult : Option (List Nat)
  uploadOk : Bool
  signedUrl : Option (List Char)
  updateOk : Bool
deriving DecidableEq

/-- What one edge-function invocation produced: the response, the
`generated_documents` rows it persisted, and the object-store calls made. -/
structure EdgeOutcome where
  response : EdgeResponse
  records : List GenRecord
  storeOps : List StoreOp
deriving DecidableEq

/-- JavaScript falsiness of `parameters[name]` for string values: absent or
empty string. -/
def jsFalsyStr : Option (List Char) → Bool
  | none => true
  | some v => v.isEmpty

/-- The edge function's required-parameter check (index.ts 66-71): first
required parameter whose submitted value is falsy. -/
def firstMissingRequired (tps : List TParam)
    (vals : List (List Char × List Char)) : Option TParam :=
  (tps.filter (fun p => p.is_required)).find?
    (fun p => jsFalsyStr (assocLookup vals p.parameter_name))

/-- JavaScript `String.prototype.replace` with a plain-string pattern:
remove the first occurrence (used as
`file_url.replace('document-templates/', '')`). -/
def removeFirst (pat : List Char) : List Char → List Char
  | [] => []
  | c :: rest =>
    if pat.isPrefixOf (c :: rest) then (c :: rest).drop pat.length
    else c :: removeFirst pat rest

/-- The `document-templates/` bucket prefix. -/
def bucketPrefixChars : List Char :=
  ['d', 'o', 'c', 'u', 'm', 'e', 'n', 't', '-', 't', 'e', 'm', 'p', 'l',
   'a', 't', 'e', 's', '/']

/-- The edge function `serve` handler (index.ts), step by step: auth check,
body check, template fetch, parameter fetch, required-parameter validation,
insert of the generation request, template download, substitution, upload,
signed URL, best-effort update of the record's `file_url` (an update error is
only logged), success response. -/
def runEdge (env : EdgeEnv) : EdgeOutcome :=
  if env.hasAuthHeader = false then ⟨.err .noAuthHeader, [], []⟩
  else match env.user with
  | none => ⟨.err .unauthorized, [], []⟩
  | some uid =>
    match env.templateId, env.parameters with
    | none, _ => ⟨.err .missingParams, [], []⟩
    | some _, none => ⟨.err .missingParams, [], []⟩
    | some _, some params =>
      match env.template with
      | none => ⟨.err .templateNotFound, [], []⟩
      | some tmpl =>
        match env.templateParams with
        | none => ⟨.err .paramsFetchFailed, [], []⟩
        | some tps =>
          match firstMissingRequired tps params with
          | some p => ⟨.err (.missingRequired p.parameter_label), [], []⟩
          | none =>
            if env.insertOk = false then ⟨.err .insertFailed, [], []⟩
            else
              match env.downloadResult with
              | none =>
                ⟨.err .downloadFailed, [⟨env.insertedId, params, none⟩],
                 [.download (removeFirst bucketPrefixChars tmpl.file_url)]⟩
              | some bytes =>
                if env.uploadOk = false then
                  ⟨.err .uploadFailed, [⟨env.insertedId, params, none⟩],
                   [.download (removeFirst bucketPrefixChars tmpl.file_url),
                    .upload (uid ++ '/' :: (env.insertedId ++ '.' :: tmpl.file_type))
                      (processContent
                        ((tmpl.file_type == ['d', 'o', 'c', 'x']) ||
                          (tmpl.file_type == ['d', 'o', 'c'])) params bytes)]⟩
                else match env.signedUrl with
                | none =>
                  ⟨.err .signedUrlFailed, [⟨env.insertedId, params, none⟩],
                   [.download (removeFirst bucketPrefixChars tmpl.file_url),
                    .upload (uid ++ '/' :: (env.insertedId ++ '.' :: tmpl.file_type))
                      (processContent
                        ((tmpl.file_type == ['d', 'o', 'c', 'x']) ||
                          (tmpl.file_type == ['d', 'o', 'c'])) params bytes),
                    .createSignedUrl
                      (uid ++ '/' :: (env.insertedId ++ '.' :: tmpl.file_type))]⟩
                | some url =>
                  ⟨.ok env.insertedId url,
                   [⟨env.insertedId, params,
                     if env.updateOk then
                       some (uid ++ '/' :: (env.insertedId ++ '.' :: tmpl.file_type))
                     else none⟩],
                   [.download (removeFirst bucketPrefixChars tmpl.file_url),
                    .upload (uid ++ '/' :: (env.insertedId ++ '.' :: tmpl.file_type))
                      (processContent
                        ((tmpl.file_type == ['d', 'o', 'c', 'x']) ||
                          (tmpl.file_type == ['d', 'o', 'c'])) params bytes),
                    .createSignedUrl
                      (uid ++ '/' :: (env.insertedId ++ '.' :: tmpl.file_type))]⟩

/-- Result of the client's generate flow. -/
inductive ClientResult
  | validationError (e : VError)
  | invoked (r : EdgeResponse)
deriving DecidableEq

/-- Outcome of the client flow: the result plus everything the (possibly
not invoked) edge function persisted and called. -/
structure ClientOutcome where
  result : ClientResult
  records : List GenRecord
  storeOps : List StoreOp
deriving DecidableEq

/-- The handler `handleGenerateDocument` of the dashboard: validate on the client; only
when validation passes, invoke the edge function with the form values. -/
def runClient (ps : List ParamDef) (vals : List (List Char × List Char))
    (env : EdgeEnv) : ClientOutcome :=
  match validateParameters ps vals with
  | some e => ⟨.validationError e, [], []⟩
  | none =>
    let out := runEdge { env with parameters := some vals }
    ⟨.invoked out.response, out.records, out.storeOps⟩

/-- Value absent or trimming to the empty string, for a parameter name. -/
def absentOrBlank (vals : List (List Char × List Char)) (nm : List Char) : Bool :=
  match assocLookup vals nm with
  | none => true
  | some v => (trimList v).isEmpty

theorem findSome?_append_none {α β : Type} {f : α → Option β} {l1 l2 : List α}
    (h : ∀ x ∈ l1, f x = none) :
    (l1 ++ l2).findSome? f = l2.findSome? f := by
  induction l1 with
  | nil => rfl
  | cons a l1 ih =>
    rw [List.cons_append, List.findSome?_cons, h a (List.mem_cons_self a l1)]
    exact ih (fun x hx => h x (List.mem_cons_of_mem a hx))

/-- The validator reports the first failing required parameter's error. -/
theorem validate_first_fail {pre post : List ParamDef} {p : ParamDef}
    {vals : List (List Char × List Char)} {e : VError}
    (hreq : p.is_required = true)
    (hpre : ∀ q ∈ pre, q.is_required = true → checkParam vals q = none)
    (hp : checkParam vals p = some e) :
    validateParameters (pre ++ p :: post) vals = some e := by
  unfold validateParameters
  rw [List.filter_append, List.filter_cons, if_pos (by simp [hreq])]
  rw [findSome?_append_none]
  · rw [List.findSome?_cons, hp]
  · intro q hq
    have hmem := List.mem_filter.mp hq
    exact hpre q hmem.1 (by simpa using hmem.2)

theorem checkParam_missing_iff {vals : List (List Char × List Char)}
    {p : ParamDef} {L : List Char}
    (h : checkParam vals p = some (VError.missingRequired L)) :
    p.parameter_label = L ∧ absentOrBlank vals p.parameter_name = true := by
  unfold checkParam at h
  unfold absentOrBlank
  cases hl : assocLookup vals p.parameter_name with
  | none =>
    rw [hl] at h
    simp only [Option.map_none'] at h
    refine ⟨?_, rfl⟩
    simpa using h
  | some v =>
    rw [hl] at h
    simp only [Option.map_some'] at h
    by_cases hemp : (trimList v).isEmpty
    · rw [if_pos hemp] at h
      refine ⟨?_, hemp⟩
      simpa using h
    · rw [if_neg hemp] at h
      exfalso
      by_cases h2 : p.parameter_type = PType.email ∧ emailValid (trimList v) = false
      · rw [if_pos h2] at h
        simp at h
      · rw [if_neg h2] at h
        by_cases h3 : p.parameter_type = PType.number ∧ jsNumberIsNaN (trimList v) = true
        · rw [if_pos h3] at h
          simp at h
        · rw [if_neg h3] at h
          exact Option.noConfusion h

theorem checkParam_of_absent {vals : List (List Char × List Char)}
    {p : ParamDef} (h : absentOrBlank vals p.parameter_name = true) :
    checkParam vals p = some (VError.missingRequired p.parameter_label) := by
  unfold absentOrBlank at h
  unfold checkParam
  cases hl : assocLookup vals p.parameter_name with
  | none => rfl
  | some v =>
    rw [hl] at h
    replace h : (trimList v).isEmpty = true := h
    simp only [Option.map_some']
    rw [if_pos h]

/-- Claim C3, counterexample. The claim's "if and only if" fails: with two
required text parameters `a` (label `A`) and `b` (label `B`) and an empty
value map, validation fails with the missing-required error naming `A`, so
for parameter `b` the right-hand side of the iff holds (its value is absent)
while the left-hand side does not (the reported error names `A`, not `B`). -/
theorem claim_C3_counterexample :
    validateParameters
        [⟨['a'], ['A'], PType.text, true⟩, ⟨['b'], ['B'], PType.text, true⟩] []
      = some (VError.missingRequired ['A']) ∧
    (⟨['b'], ['B'], PType.text, true⟩ : ParamDef) ∈
      [⟨['a'], ['A'], PType.text, true⟩, (⟨['b'], ['B'], PType.text, true⟩ : ParamDef)] ∧
    absentOrBlank [] ['b'] = true ∧
    ¬ (validateParameters
        [⟨['a'], ['A'], PType.text, true⟩, ⟨['b'], ['B'], PType.text, true⟩] []
      = some (VError.missingRequired ['B']) ↔ absentOrBlank [] ['b'] = true) := by
  refine ⟨?_, ?_, ?_, ?_⟩ <;> decide

/-- Claim C3, amended. (a) If a required parameter's submitted value is absent
or trims to the empty string (in particular, whitespace-only) and every
earlier required parameter passes its checks, validation fails with the
missing-required error naming that parameter's label. (b) Conversely, every
missing-required error names the label of some required parameter whose value
is absent or trims to the empty string. -/
theorem claim_C3_amended :
    (∀ (pre post : List ParamDef) (p : ParamDef)
        (vals : List (List Char × List Char)),
      p.is_required = true →
      (∀ q ∈ pre, q.is_required = true → checkParam vals q = none) →
      absentOrBlank vals p.parameter_name = true →
      validateParameters (pre ++ p :: post) vals
        = some (VError.missingRequired p.parameter_label)) ∧
    (∀ (ps : List ParamDef) (vals : List (List Char × List Char)) (L : List Char),
      validateParameters ps vals = some (VError.missingRequired L) →
      ∃ p ∈ ps, p.is_required = true ∧ p.parameter_label = L ∧
        absentOrBlank vals p.parameter_name = true) := by
  constructor
  · intro pre post p vals hreq hpre habs
    exact validate_first_fail hreq hpre (checkParam_of_absent habs)
  · intro ps vals L h
    unfold validateParameters at h
    obtain ⟨p, hpmem, hpchk⟩ := List.exists_of_findSome?_eq_some h
    have hmem := List.mem_filter.mp hpmem
    obtain ⟨hlab, habs⟩ := checkParam_missing_iff hpchk
    exact ⟨p, hmem.1, by simpa using hmem.2, hlab, habs⟩

/-- Witness for `claim_C3_amended`: a required parameter with the
whitespace-only value `" "` is rejected with its missing-required error, and
the error's label is that of a required absent-or-blank parameter. -/
theorem claim_C3_witness :
    ((⟨['a'], ['A'], PType.text, true⟩ : ParamDef).is_required = true ∧
      absentOrBlank [(['a'], [' '])] ['a'] = true ∧
      validateParameters [⟨['a'], ['A'], PType.text, true⟩] [(['a'], [' '])]
        = some (VError.missingRequired ['A'])) ∧
    (∃ p ∈ [(⟨['a'], ['A'], PType.text, true⟩ : ParamDef)],
      p.is_required = true ∧ p.parameter_label = ['A'] ∧
      absentOrBlank [(['a'], [' '])] p.parameter_name = true) :=
  ⟨⟨by decide, by decide,
    claim_C3_amended.1 [] [] ⟨['a'], ['A'], PType.text, true⟩ [(['a'], [' '])]
      (by decide) (fun q hq => by cases hq) (by decide)⟩,
   claim_C3_amended.2 [⟨['a'], ['A'], PType.text, true⟩] [(['a'], [' '])] ['A']
     (@validate_first_fail [] [] ⟨['a'], ['A'], PType.text, true⟩ [(['a'], [' '])]
       (VError.missingRequired ['A']) (by decide) (fun q hq => by cases hq)
       (by decide))⟩

/-- Claim C4, counterexample. The claim fails for a non-required email
parameter: the client validator checks only required parameters, so the
value `not-an-email` for an optional email parameter passes validation, the
edge function is invoked, and object-store calls (download, upload, signed
URL) occur — no invalid-format failure is reported. -/
theorem claim_C4_counterexample :
    emailValid (trimList ['n', 'o', 't', '-', 'a', 'n', '-', 'e', 'm', 'a', 'i', 'l'])
      = false ∧
    (⟨['e', 'm'], ['E', 'm'], PType.email, false⟩ : ParamDef).parameter_type
      = PType.email ∧
    validateParameters [⟨['e', 'm'], ['E', 'm'], PType.email, false⟩]
      [(['e', 'm'], ['n', 'o', 't', '-', 'a', 'n', '-', 'e', 'm', 'a', 'i', 'l'])]
      = none ∧
    (runClient [⟨['e', 'm'], ['E', 'm'], PType.email, false⟩]
      [(['e', 'm'], ['n', 'o', 't', '-', 'a', 'n', '-', 'e', 'm', 'a', 'i', 'l'])]
      ⟨true, some ['u'], some ['t'], none, some ⟨['x', 'l', 's', 'x'], ['f']⟩,
        some [], true, ['i'], some [72], true, some ['U'], true⟩).result
      = ClientResult.invoked (EdgeResponse.ok ['i'] ['U']) ∧
    (runClient [⟨['e', 'm'], ['E', 'm'], PType.email, false⟩]
      [(['e', 'm'], ['n', 'o', 't', '-', 'a', 'n', '-', 'e', 'm', 'a', 'i', 'l'])]
      ⟨true, some ['u'], some ['t'], none, some ⟨['x', 'l', 's', 'x'], ['f']⟩,
        some [], true, ['i'], some [72], true, some ['U'], true⟩).storeOps
      ≠ [] := by
  refine ⟨?_, ?_, ?_, ?_, ?_⟩ <;> decide

/-- Claim C4, amended. For every generation request in which a **required**
email-typed parameter's submitted value is present (nonempty after trimming)
but fails the email grammar, and every earlier required parameter passes its
checks, the client validator reports the invalid-format (invalid email)
failure naming that parameter, the edge function is never invoked, and no
object-store call and no record insert occurs. (The email grammar is
modelled from the spec, the zod validator being external library code.) -/
theorem claim_C4_amended {pre post : List ParamDef} {p : ParamDef}
    {vals : List (List Char × List Char)} {env : EdgeEnv} {raw : List Char}
    (hreq : p.is_required = true) (hty : p.parameter_type = PType.email)
    (hlook : assocLookup vals p.parameter_name = some raw)
    (hne : (trimList raw).isEmpty = false)
    (hbad : emailValid (trimList raw) = false)
    (hpre : ∀ q ∈ pre, q.is_required = true → checkParam vals q = none) :
    runClient (pre ++ p :: post) vals env =
      ⟨ClientResult.validationError (VError.invalidEmail p.parameter_label),
        [], []⟩ := by
  have hchk : checkParam vals p = some (VError.invalidEmail p.parameter_label) := by
    unfold checkParam
    rw [hlook]
    simp only [Option.map_some']
    rw [if_neg (by rw [hne]; simp), if_pos ⟨hty, hbad⟩]
  have hval : validateParameters (pre ++ p :: post) vals
      = some (VError.invalidEmail p.parameter_label) :=
    validate_first_fail hreq hpre hchk
  unfold runClient
  rw [hval]

/-- Witness for `claim_C4_amended`: a required email parameter with value
`not-an-email` makes the pipeline stop at validation with the invalid-email
error, no store calls. -/
theorem claim_C4_witness :
    (⟨['e', 'm'], ['E', 'm'], PType.email, true⟩ : ParamDef).is_required = true ∧
    emailValid (trimList ['n', 'o', 't', '-', 'a', 'n', '-', 'e', 'm', 'a', 'i', 'l'])
      = false ∧
    runClient [⟨['e', 'm'], ['E', 'm'], PType.email, true⟩]
      [(['e', 'm'], ['n', 'o', 't', '-', 'a', 'n', '-', 'e', 'm', 'a', 'i', 'l'])]
      ⟨true, some ['u'], some ['t'], none, some ⟨['x', 'l', 's', 'x'], ['f']⟩,
        some [], true, ['i'], some [72], true, some ['U'], true⟩
      = ⟨ClientResult.validationError (VError.invalidEmail ['E', 'm']), [], []⟩ :=
  ⟨by decide, by decide,
   @claim_C4_amended [] [] ⟨['e', 'm'], ['E', 'm'], PType.email, true⟩
     [(['e', 'm'], ['n', 'o', 't', '-', 'a', 'n', '-', 'e', 'm', 'a', 'i', 'l'])]
     ⟨true, some ['u'], some ['t'], none, some ⟨['x', 'l', 's', 'x'], ['f']⟩,
       some [], true, ['i'], some [72], true, some ['U'], true⟩
     ['n', 'o', 't', '-', 'a', 'n', '-', 'e', 'm', 'a', 'i', 'l']
     (by decide) (by decide) (by decide) (by decide) (by decide)
     (fun q hq => by cases hq)⟩

/-- Claim C5, counterexample. When the edge function's required-parameter
validation fails, **no** GenerationRequest record is persisted: the insert
into `generated_documents` happens only after validation. The claim's
"the GenerationRequest record is still persisted" is false. -/
theorem claim_C5_counterexample :
    runEdge ⟨true, some ['u'], some ['t'], some [], some ⟨['x', 'l', 's', 'x'], ['f']⟩,
        some [⟨['n'], ['N'], true⟩], true, ['i'], some [72], true, some ['U'], true⟩
      = ⟨EdgeResponse.err (EdgeError.missingRequired ['N']), [], []⟩ ∧
    (runEdge ⟨true, some ['u'], some ['t'], some [], some ⟨['x', 'l', 's', 'x'], ['f']⟩,
        some [⟨['n'], ['N'], true⟩], true, ['i'], some [72], true, some ['U'], true⟩).records
      = [] := by
  refine ⟨?_, ?_⟩ <;> decide

/-- Claim C5, amended. Whenever the edge function's parameter validation
fails, the pipeline fails with the missing-required error and **no**
GenerationRequest record is persisted — in particular no record carries a
result reference. -/
theorem claim_C5_amended {env : EdgeEnv} {uid tid : List Char}
    {params : List (List Char × List Char)} {tmpl : TemplateRec}
    {tps : List TParam} {p : TParam}
    (h1 : env.hasAuthHeader = true) (h2 : env.user = some uid)
    (h3 : env.templateId = some tid) (h4 : env.parameters = some params)
    (h5 : env.template = some tmpl) (h6 : env.templateParams = some tps)
    (h7 : firstMissingRequired tps params = some p) :
    runEdge env = ⟨EdgeResponse.err (EdgeError.missingRequired p.parameter_label),
      [], []⟩ := by
  obtain ⟨auth, user, tid', pms, tm, tp, insOk, iid, dl, upOk, sUrl, updOk⟩ := env
  simp only at h1 h2 h3 h4 h5 h6
  subst h1 h2 h3 h4 h5 h6
  simp [runEdge, h7]

/-- Witness for `claim_C5_amended`. -/
theorem claim_C5_witness :
    firstMissingRequired [⟨['n'], ['N'], true⟩] [] = some ⟨['n'], ['N'], true⟩ ∧
    runEdge ⟨true, some ['u'], some ['t'], some [], some ⟨['x', 'l', 's', 'x'], ['f']⟩,
        some [⟨['n'], ['N'], true⟩], true, ['i'], some [72], true, some ['U'], true⟩
      = ⟨EdgeResponse.err (EdgeError.missingRequired ['N']), [], []⟩ :=
  ⟨by decide,
   claim_C5_amended (p := ⟨['n'], ['N'], true⟩) rfl rfl rfl rfl rfl rfl (by decide)⟩

/-- Claim C8, confirmed. When the object store reports that the template
cannot be fetched (download returns not-found), the pipeline ends in the
template-unavailable failure (`Failed to download template file`), and the
persisted GenerationRequest record's result reference stays unset: no record
references a result key. -/
theorem claim_C8_template_unavailable {env : EdgeEnv} {uid tid : List Char}
    {params : List (List Char × List Char)} {tmpl : TemplateRec}
    {tps : List TParam}
    (h1 : env.hasAuthHeader = true) (h2 : env.user = some uid)
    (h3 : env.templateId = some tid) (h4 : env.parameters = some params)
    (h5 : env.template = some tmpl) (h6 : env.templateParams = some tps)
    (h7 : firstMissingRequired tps params = none) (h8 : env.insertOk = true)
    (h9 : env.downloadResult = none) :
    (runEdge env).response = EdgeResponse.err EdgeError.downloadFailed ∧
    ∀ rec ∈ (runEdge env).records, rec.resultRef = none := by
  obtain ⟨auth, user, tid', pms, tm, tp, insOk, iid, dl, upOk, sUrl, updOk⟩ := env
  simp only at h1 h2 h3 h4 h5 h6 h8 h9
  subst h1 h2 h3 h4 h5 h6 h8 h9
  constructor
  · simp [runEdge, h7]
  · intro rec hrec
    simp [runEdge, h7] at hrec
    rw [hrec]

/-- Witness for `claim_C8_template_unavailable`. -/
theorem claim_C8_witness :
    (runEdge ⟨true, some ['u'], some ['t'], some [], some ⟨['x', 'l', 's', 'x'], ['f']⟩,
        some [], true, ['i'], none, true, some ['U'], true⟩).response
      = EdgeResponse.err EdgeError.downloadFailed ∧
    ∀ rec ∈ (runEdge ⟨true, some ['u'], some ['t'], some [],
        some ⟨['x', 'l', 's', 'x'], ['f']⟩,
        some [], true, ['i'], none, true, some ['U'], true⟩).records,
      rec.resultRef = none :=
  claim_C8_template_unavailable rfl rfl rfl rfl rfl rfl (by decide) rfl rfl

/-- Claim C10, confirmed. If the upload and the signed-URL request succeeded
but the final update recording the result key on the GenerationRequest
record fails, the pipeline still returns the success response with the
download URL — identical to the response when the update succeeds; the
record-update failure never surfaces to the caller. -/
theorem claim_C10_update_failure_hidden {env : EdgeEnv} {uid tid url : List Char}
    {params : List (List Char × List Char)} {tmpl : TemplateRec}
    {tps : List TParam} {bytes : List Nat}
    (h1 : env.hasAuthHeader = true) (h2 : env.user = some uid)
    (h3 : env.templateId = some tid) (h4 : env.parameters = some params)
    (h5 : env.template = some tmpl) (h6 : env.templateParams = some tps)
    (h7 : firstMissingRequired tps params = none) (h8 : env.insertOk = true)
    (h9 : env.downloadResult = some bytes) (h10 : env.uploadOk = true)
    (h11 : env.signedUrl = some url) (h12 : env.updateOk = false) :
    (runEdge env).response = EdgeResponse.ok env.insertedId url ∧
    (runEdge { env with updateOk := true }).response = (runEdge env).response := by
  obtain ⟨auth, user, tid', pms, tm, tp, insOk, iid, dl, upOk, sUrl, updOk⟩ := env
  simp only at h1 h2 h3 h4 h5 h6 h8 h9 h10 h11 h12
  subst h1 h2 h3 h4 h5 h6 h8 h9 h10 h11 h12
  constructor
  · simp [runEdge, h7]
  · simp [runEdge, h7]

/-- Witness for `claim_C10_update_failure_hidden`. -/
theorem claim_C10_witness :
    (runEdge ⟨true, some ['u'], some ['t'], some [], some ⟨['x', 'l', 's', 'x'], ['f']⟩,
        some [], true, ['i'], some [72], true, some ['U'], false⟩).response
      = EdgeResponse.ok ['i'] ['U'] ∧
    (runEdge ⟨true, some ['u'], some ['t'], some [], some ⟨['x', 'l', 's', 'x'], ['f']⟩,
        some [], true, ['i'], some [72], true, some ['U'], true⟩).response
      = (runEdge ⟨true, some ['u'], some ['t'], some [],
          some ⟨['x', 'l', 's', 'x'], ['f']⟩,
          some [], true, ['i'], some [72], true, some ['U'], false⟩).response :=
  claim_C10_update_failure_hidden rfl rfl rfl rfl rfl rfl (by decide) rfl rfl rfl
    rfl rfl

/-- Delete every entry for a name from a value map (to compare “value absent”
with “value present but empty”). -/
def removeKey (vals : List (List Char × List Char)) (nm : List Char) :
    List (List Char × List Char) :=
  vals.filter (fun kv => !(kv.1 == nm))

theorem assocLookup_removeKey_self {vals : List (List Char × List Char)}
    {nm : List Char} : assocLookup (removeKey vals nm) nm = none := by
  unfold assocLookup
  have : (removeKey vals nm).find? (fun kv => kv.1 == nm) = none := by
    rw [List.find?_eq_none]
    intro kv hkv
    have := (List.mem_filter.mp hkv).2
    simp only [Bool.not_eq_true'] at this
    simp [this]
  rw [this]
  rfl

theorem assocLookup_removeKey_ne {vals : List (List Char × List Char)}
    {nm nm' : List Char} (h : nm' ≠ nm) :
    assocLookup (removeKey vals nm) nm' = assocLookup vals nm' := by
  unfold assocLookup removeKey
  induction vals with
  | nil => rfl
  | cons kv vals ih =>
    by_cases hk : kv.1 == nm
    · rw [List.filter_cons, if_neg (by simp [hk])]
      have hne : (kv.1 == nm') = false := by
        have : kv.1 = nm := by simpa using hk
        simp [this]
        exact fun he => h he.symm
      rw [List.find?_cons, hne]
      exact ih
    · rw [List.filter_cons, if_pos (by simp [hk])]
      rw [List.find?_cons, List.find?_cons]
      cases hx : (kv.1 == nm') with
      | true => rfl
      | false => exact ih

theorem find?_congr {α : Type} {p q : α → Bool} {l : List α}
    (h : ∀ x ∈ l, p x = q x) : l.find? p = l.find? q := by
  induction l with
  | nil => rfl
  | cons a l ih =>
    rw [List.find?_cons, List.find?_cons, h a (List.mem_cons_self a l)]
    cases q a with
    | true => rfl
    | false => exact ih (fun x hx => h x (List.mem_cons_of_mem a hx))

theorem firstMissing_removeKey {tps : List TParam}
    {vals : List (List Char × List Char)} {nm : List Char}
    (hfal : jsFalsyStr (assocLookup vals nm) = true) :
    firstMissingRequired tps vals = firstMissingRequired tps (removeKey vals nm) := by
  unfold firstMissingRequired
  refine find?_congr ?_
  intro q _
  by_cases hqe : q.parameter_name = nm
  · rw [hqe, assocLookup_removeKey_self, hfal]
    rfl
  · rw [assocLookup_removeKey_ne hqe]

theorem firstMissing_isSome {tps : List TParam} {p : TParam}
    {vals : List (List Char × List Char)} (hmem : p ∈ tps)
    (hreq : p.is_required = true)
    (hfal : jsFalsyStr (assocLookup vals p.parameter_name) = true) :
    ∃ q, firstMissingRequired tps vals = some q := by
  unfold firstMissingRequired
  rw [← Option.isSome_iff_exists, List.find?_isSome]
  exact ⟨p, List.mem_filter.mpr ⟨hmem, by simpa using hreq⟩, hfal⟩

/-- Claim C9, confirmed. At the pipeline entry point, a required parameter
whose submitted value is the empty string is rejected exactly as if the
parameter were absent from the value map: the edge function's outcome —
response (the same missing-required error), persisted records, store calls —
is identical for the two value maps. -/
theorem claim_C9_empty_eq_absent {tps : List TParam} {p : TParam}
    {vals : List (List Char × List Char)} {env : EdgeEnv}
    (hmem : p ∈ tps) (hreq : p.is_required = true)
    (hempty : assocLookup vals p.parameter_name = some [])
    (h6 : env.templateParams = some tps) (h4 : env.parameters = some vals) :
    runEdge env
      = runEdge { env with parameters := some (removeKey vals p.parameter_name) } := by
  obtain ⟨auth, user, tid', pms, tm, tp, insOk, iid, dl, upOk, sUrl, updOk⟩ := env
  simp only at h4 h6
  subst h4 h6
  have hfal : jsFalsyStr (assocLookup vals p.parameter_name) = true := by
    rw [hempty]
    rfl
  cases auth with
  | false => rfl
  | true =>
    cases user with
    | none => rfl
    | some uid =>
      cases tid' with
      | none => rfl
      | some tid =>
        cases tm with
        | none => rfl
        | some tmpl =>
          have hEq := @firstMissing_removeKey tps vals p.parameter_name hfal
          obtain ⟨q, hq⟩ := firstMissing_isSome hmem hreq hfal
          have hq2 : firstMissingRequired tps (removeKey vals p.parameter_name)
              = some q := by
            rw [← hEq]
            exact hq
          simp [runEdge, hq, hq2]

/-- Witness for `claim_C9_empty_eq_absent`: with required parameter `n`, the
value map `n ↦ ""` and the empty value map produce identical outcomes. -/
theorem claim_C9_witness :
    assocLookup [(['n'], [])] ['n'] = some [] ∧
    runEdge ⟨true, some ['u'], some ['t'], some [(['n'], [])],
        some ⟨['x', 'l', 's', 'x'], ['f']⟩, some [⟨['n'], ['N'], true⟩],
        true, ['i'], some [72], true, some ['U'], true⟩
      = runEdge ⟨true, some ['u'], some ['t'],
        some (removeKey [(['n'], [])] ['n']),
        some ⟨['x', 'l', 's', 'x'], ['f']⟩, some [⟨['n'], ['N'], true⟩],
        true, ['i'], some [72], true, some ['U'], true⟩ :=
  ⟨by decide,
   claim_C9_empty_eq_absent (List.mem_cons_self _ _) rfl (by decide) rfl rfl⟩
